import Mathlib

/-!
Verification development for the letta-code-action repository.

Strings manipulated by the TypeScript sources are modelled as `List Char`
(`Str` below).  Every JavaScript string primitive used by the sources
(`indexOf`, `slice`, `includes`, `trim`, `split`, `toLowerCase`, …) is given
an explicit executable model, and each source function under scrutiny is
translated on top of those models.
-/

set_option maxHeartbeats 1000000

namespace Letta

abbrev Str := List Char

/-- Conversion from Lean string literals to the `List Char` model. -/
def str (s : String) : Str := s.data

/-- Model of the whitespace class used by JavaScript `trim` / `\s`
(restricted to the ASCII whitespace actually occurring in the sources). -/
def wsChar (c : Char) : Bool :=
  c = ' ' || c = '\t' || c = '\n' || c = '\r'

/-- Model of JavaScript `String.prototype.trim`. -/
def trimL (s : Str) : Str :=
  ((s.dropWhile wsChar).reverse.dropWhile wsChar).reverse

/-- Model of JavaScript `String.prototype.toLowerCase`
(character-wise lowering; the sources only compare ASCII data). -/
def lowerL (s : Str) : Str := s.map Char.toLower

/-- Model of JavaScript `String.prototype.indexOf` for a pattern searched
from the start of the string: first index at which `pat` occurs, if any. -/
def findSub (pat : Str) : Str → Option Nat
  | [] => if pat.isPrefixOf ([] : Str) then some 0 else none
  | c :: rest =>
    if pat.isPrefixOf (c :: rest) then some 0
    else (findSub pat rest).map (· + 1)

/-- Model of JavaScript `String.prototype.includes`. -/
def containsSub (pat s : Str) : Bool := (findSub pat s).isSome

/-- Number of starting positions at which `pat` occurs in `s`
(specification-side counting device for "exactly one marker"). -/
def countSub (pat : Str) : Str → Nat
  | [] => if pat.isPrefixOf ([] : Str) then 1 else 0
  | c :: rest =>
    (if pat.isPrefixOf (c :: rest) then 1 else 0) + countSub pat rest

/-- Model of JavaScript `String.prototype.split("\n")`. -/
def splitNl : Str → List Str
  | [] => [[]]
  | c :: rest =>
    match splitNl rest with
    | [] => if c = '\n' then [[], []] else [[c]]
    | h :: t => if c = '\n' then [] :: h :: t else (c :: h) :: t

/-- Model of JavaScript `Array.prototype.join("\n")`. -/
def joinNl : List Str → Str
  | [] => []
  | [l] => l
  | l :: l' :: ls => l ++ '\n' :: joinNl (l' :: ls)

/-- Truthiness of an optional string in TypeScript:
`undefined` and the empty string are falsy. -/
def strTruthy : Option Str → Bool
  | none => false
  | some s => !s.isEmpty

/-- Decimal rendering of a natural number (auxiliary, fuel-driven). -/
def natCharsAux : Nat → Nat → Str
  | 0, _ => []
  | fuel + 1, n =>
    if n = 0 then []
    else natCharsAux fuel (n / 10) ++ [Char.ofNat (48 + n % 10)]

/-- Decimal rendering of a natural number
(models JavaScript number-to-string interpolation for integers). -/
def natToStr (n : Nat) : Str :=
  if n = 0 then str "0" else natCharsAux (n + 1) n

/-- A string is trimmed when `trim` leaves each end untouched. -/
def IsTrimmed (v : Str) : Prop :=
  v.dropWhile wsChar = v ∧ v.reverse.dropWhile wsChar = v.reverse

instance (v : Str) : Decidable (IsTrimmed v) := by
  unfold IsTrimmed; infer_instance


/-! ### Metadata codec (src/letta/metadata.ts), with `conversation_id` -/

namespace Meta

/-- The marker start token `METADATA_START`. -/
def START : Str := str "<!-- letta-metadata"

/-- The marker end token `METADATA_END`. -/
def ENDT : Str := str "-->"

/-- Modelled from the spec: the resumption record of the metadata module
`src/letta/metadata.ts`, which is imported by `find-existing-agent.ts` and
`comment-logic.ts` but absent from the listing; agent id required,
conversation id / model / created timestamp optional (spec section 3 and
section 6).  The variant without `conversation_id` that does appear in the
listing (inside `collect-inputs.ts`) is embedded separately below as `CI`. -/
structure LettaMetadata where
  agentId : Str
  conversationId : Option Str := none
  model : Option Str := none
  created : Option Str := none
deriving DecidableEq

/-- Modelled from the spec: `format(record)` of the missing metadata module.
Writes `key: value` lines in the fixed order `agent_id`, optionally
`conversation_id`, optionally `model`, `created` (defaulting to the current
time `now`, passed explicitly here in place of `new Date().toISOString()`),
between the fixed start and end tokens — exactly the marker grammar of spec
section 6 and the structure of the listed `collect-inputs.ts` variant. -/
def formatMetadata (m : LettaMetadata) (now : Str) : Str :=
  let lines : List Str :=
    [str "agent_id: " ++ m.agentId]
    ++ (if strTruthy m.conversationId then
          [str "conversation_id: " ++ m.conversationId.getD []] else [])
    ++ (if strTruthy m.model then [str "model: " ++ m.model.getD []] else [])
    ++ [if strTruthy m.created then str "created: " ++ m.created.getD []
        else str "created: " ++ now]
  START ++ str "\n" ++ joinNl lines ++ str "\n" ++ ENDT

/-- Accumulator for the line-by-line parse loop. -/
structure MetaAcc where
  agentId : Option Str := none
  conversationId : Option Str := none
  model : Option Str := none
  created : Option Str := none
deriving DecidableEq

/-- One iteration of the parse loop: split a `key: value` line at the first
colon, trim both parts, and record recognized keys. -/
def parseMetaLine (acc : MetaAcc) (line : Str) : MetaAcc :=
  match findSub (str ":") line with
  | none => acc
  | some ci =>
    let key := trimL (line.take ci)
    let value := trimL (line.drop (ci + 1))
    if key = str "agent_id" then { acc with agentId := some value }
    else if key = str "conversation_id" then { acc with conversationId := some value }
    else if key = str "model" then { acc with model := some value }
    else if key = str "created" then { acc with created := some value }
    else acc

/-- Modelled from the spec: `parse(text)` of the missing metadata module.
Finds the start token, then the end token after it, trims the interior,
splits it into lines, reads `key: value` pairs order-independently, and
returns null unless a (truthy) `agent_id` was found — the parse rules of
spec section 4.2, matching the listed `collect-inputs.ts` variant extended
with the `conversation_id` key. -/
def parseMetadata (commentBody : Str) : Option LettaMetadata :=
  match findSub START commentBody with
  | none => none
  | some startIndex =>
    match (findSub ENDT (commentBody.drop startIndex)).map (· + startIndex) with
    | none => none
    | some endIndex =>
      let metadataContent :=
        (commentBody.take endIndex).drop (startIndex + START.length)
      let lines := splitNl (trimL metadataContent)
      let acc := lines.foldl parseMetaLine {}
      match acc.agentId with
      | none => none
      | some a =>
        if a.isEmpty then none
        else some { agentId := a, conversationId := acc.conversationId,
                    model := acc.model, created := acc.created }

/-- Modelled from the spec: `hasMarker(text)` of the missing metadata
module — the body contains the start token. -/
def hasMetadata (commentBody : Str) : Bool := containsSub START commentBody

/-- Modelled from the spec: `upsert(body, record)` of the missing metadata
module — replace the byte span from start token through end token if a
marker exists, else append the formatted marker after two newlines (spec
section 4.2, matching the listed `collect-inputs.ts` variant).  The
`none => 2` arm reproduces the JavaScript arithmetic `(-1) + "-->".length`
for an absent end token. -/
def updateMetadataInBody (body : Str) (m : LettaMetadata) (now : Str) : Str :=
  let formattedMetadata := formatMetadata m now
  if hasMetadata body then
    let startIndex := (findSub START body).getD 0
    let endIndex :=
      match (findSub ENDT (body.drop startIndex)).map (· + startIndex) with
      | some k => k + ENDT.length
      | none => 2
    body.take startIndex ++ formattedMetadata ++ body.drop endIndex
  else
    body ++ str "\n\n" ++ formattedMetadata

end Meta

/-! ### Metadata codec variant embedded in src/entrypoints/collect-inputs.ts -/

namespace CI

/-- `LettaMetadata` as declared in `collect-inputs.ts` (no conversation id). -/
structure LettaMetadata where
  agentId : Str
  model : Option Str := none
  created : Option Str := none
deriving DecidableEq

/-- `formatMetadata` of `collect-inputs.ts`: `agent_id` line, optional
`model` line, `created` line (defaulting to the current time `now`, passed
explicitly in place of `new Date().toISOString()`), joined by newlines
between the fixed start and end tokens. -/
def formatMetadata (m : LettaMetadata) (now : Str) : Str :=
  let lines : List Str :=
    [str "agent_id: " ++ m.agentId]
    ++ (if strTruthy m.model then [str "model: " ++ m.model.getD []] else [])
    ++ [if strTruthy m.created then str "created: " ++ m.created.getD []
        else str "created: " ++ now]
  Meta.START ++ str "\n" ++ joinNl lines ++ str "\n" ++ Meta.ENDT

/-- `hasMetadata` of `collect-inputs.ts`. -/
def hasMetadata (commentBody : Str) : Bool := containsSub Meta.START commentBody

/-- `updateMetadataInBody` of `collect-inputs.ts`: replace the existing
marker in place if present, else append the formatted marker after two
newlines.  The `none => 2` arm reproduces the JavaScript arithmetic
`(-1) + "-->".length` for an absent end token. -/
def updateMetadataInBody (body : Str) (m : LettaMetadata) (now : Str) : Str :=
  let formattedMetadata := formatMetadata m now
  if hasMetadata body then
    let startIndex := (findSub Meta.START body).getD 0
    let endIndex :=
      match (findSub Meta.ENDT (body.drop startIndex)).map (· + startIndex) with
      | some k => k + Meta.ENDT.length
      | none => 2
    body.take startIndex ++ formattedMetadata ++ body.drop endIndex
  else
    body ++ str "\n\n" ++ formattedMetadata

end CI

/-- Well-formed field value: a non-empty single-line trimmed string that
does not contain the marker end token (the shape of the opaque identifiers
and ISO timestamps the records hold). -/
def WFfield (v : Str) : Prop :=
  v ≠ [] ∧ IsTrimmed v ∧ ('\n' ∉ v) ∧ findSub Meta.ENDT v = none

instance : DecidablePred WFfield := fun v => by
  unfold WFfield; infer_instance

/-- Well-formedness of an optional field. -/
def WFopt (o : Option Str) : Prop := ∀ v, o = some v → WFfield v

instance : DecidablePred WFopt := fun o =>
  match o with
  | none => isTrue (by intro v h; cases h)
  | some x =>
    decidable_of_iff (WFfield x)
      ⟨fun h v hv => by cases hv; exact h, fun h => h x rfl⟩

/-! ### Upsert idempotence machinery for the collect-inputs codec -/


/-- A string free of both marker delimiter tokens. -/
def CleanS (v : Str) : Prop :=
  findSub Meta.ENDT v = none ∧ findSub Meta.START v = none

instance : DecidablePred CleanS := fun v => by
  unfold CleanS; infer_instance

/-- All field values of a record are free of the marker delimiters. -/
def CleanRec (m : CI.LettaMetadata) : Prop :=
  CleanS m.agentId ∧ (∀ v, m.model = some v → CleanS v) ∧
    (∀ v, m.created = some v → CleanS v)

instance : DecidablePred CleanRec := fun m => by
  unfold CleanRec
  have : ∀ o : Option Str, Decidable (∀ v, o = some v → CleanS v) := fun o =>
    match o with
    | none => isTrue (by intro v h; cases h)
    | some x =>
      decidable_of_iff (CleanS x)
        ⟨fun h v hv => by cases hv; exact h, fun h => h x rfl⟩
  exact @instDecidableAnd _ _ _ (@instDecidableAnd _ _ (this _) (this _))

/-- The line list written by `CI.formatMetadata` (proof-side device). -/
def ciLines (m : CI.LettaMetadata) (now : Str) : List Str :=
  [str "agent_id: " ++ m.agentId]
  ++ (if strTruthy m.model then [str "model: " ++ m.model.getD []] else [])
  ++ [if strTruthy m.created then str "created: " ++ m.created.getD []
      else str "created: " ++ now]

/-! ### find-existing-agent.ts (current variant, with mention fallback) -/

namespace FEA

/-- Word characters for the regex `\b` boundary check. -/
def isWordChar (c : Char) : Bool := c.isAlpha || c.isDigit || c = '_'

/-- The keyword alternatives of
`\b(?:fix(?:es|ed)?|close[sd]?|resolve[sd]?)`, in the order the regex
engine tries them under backtracking. -/
def closingKeywords : List Str :=
  [str "fixes", str "fixed", str "fix", str "closes", str "closed",
   str "close", str "resolves", str "resolved", str "resolve"]

/-- Numeric value of a digit run (model of `parseInt(_, 10)`). -/
def digitsToNat (ds : Str) : Nat :=
  ds.foldl (fun acc c => acc * 10 + (c.toNat - 48)) 0

/-- Match the `:?\s*#(\d+)` tail of the closing pattern at the head of
`s`; returns the captured number and the suffix after the match. -/
def matchClosingTail (s : Str) : Option (Nat × Str) :=
  let s1 := if s.head? = some ':' then s.tail else s
  let s2 := s1.dropWhile wsChar
  if s2.head? = some '#' then
    let r := s2.tail
    let ds := r.takeWhile Char.isDigit
    if ds.isEmpty then none
    else some (digitsToNat ds, r.dropWhile Char.isDigit)
  else none

/-- Try the keyword alternatives (case-insensitively) at the head of `s`,
each followed by the closing tail. -/
def tryKeywords : List Str → Str → Option (Nat × Str)
  | [], _ => none
  | k :: ks, s =>
    if lowerL (s.take k.length) = k then
      match matchClosingTail (s.drop k.length) with
      | some r => some r
      | none => tryKeywords ks s
    else tryKeywords ks s

/-- Scan for all matches of the closing pattern
`/\b(?:fix(?:es|ed)?|close[sd]?|resolve[sd]?):?\s*#(\d+)/gi`, in order,
non-overlapping.  `prevW` records whether the previous character is a word
character (for the `\b` assertion); `fuel` bounds the recursion by the
string length. -/
def closingScan : Nat → Bool → Str → List Nat
  | 0, _, _ => []
  | _ + 1, _, [] => []
  | fuel + 1, prevW, c :: rest =>
    match (if prevW then none else tryKeywords closingKeywords (c :: rest)) with
    | some (n, s') => n :: closingScan fuel true s'
    | none => closingScan fuel (isWordChar c) rest

/-- Scan for all matches of the mention pattern `/#(\d+)/g`, in order,
non-overlapping. -/
def mentionScan : Nat → Str → List Nat
  | 0, _ => []
  | _ + 1, [] => []
  | fuel + 1, c :: rest =>
    if c = '#' then
      let ds := rest.takeWhile Char.isDigit
      if ds.isEmpty then mentionScan fuel rest
      else digitsToNat ds :: mentionScan fuel (rest.dropWhile Char.isDigit)
    else mentionScan fuel rest

/-- Model of JavaScript `Set` insertion: keep first occurrence, preserve
insertion order. -/
def addUnique (l : List Nat) (n : Nat) : List Nat :=
  if n ∈ l then l else l ++ [n]

/-- Insertion-ordered deduplication (a `Set` filled left to right, then
`Array.from`). -/
def dedupKeepFirst (l : List Nat) : List Nat := l.foldl addUnique []

/-- `extractLinkedIssues` of the current `find-existing-agent.ts`:
closing-keyword matches first (deduplicated, insertion order), then plain
`#N` mentions not already among the closing matches. -/
def extractLinkedIssues (body : Option Str) : List Nat :=
  match body with
  | none => []
  | some b =>
    if b.isEmpty then []
    else
      let closingIssues := dedupKeepFirst (closingScan (b.length + 1) false b)
      let mentionedIssues := dedupKeepFirst
        ((mentionScan (b.length + 1) b).filter (fun n => n ∉ closingIssues))
      closingIssues ++ mentionedIssues

/-- The author of a GitHub comment, as used by the bot check. -/
structure GhUser where
  id : Nat
  type : Str
  login : Str
deriving DecidableEq

/-- A GitHub issue comment (the fields the search reads). -/
structure IssueComment where
  id : Nat
  user : Option GhUser := none
  body : Option Str := none
deriving DecidableEq

/-- `LETTA_APP_BOT_ID` from `github/constants.ts`. -/
def LETTA_APP_BOT_ID : Nat := 248085862

/-- The recognized-bot check of `searchCommentsForAgent`. -/
def isLettaBot (c : IssueComment) : Bool :=
  match c.user with
  | none => false
  | some u =>
    u.id = LETTA_APP_BOT_ID ||
    (u.type = str "Bot" && containsSub (str "letta") (lowerL u.login)) ||
    u.login = str "github-actions[bot]"

/-- `ExistingAgentInfo` of `find-existing-agent.ts`. -/
structure ExistingAgentInfo where
  agentId : Str
  conversationId : Option Str := none
  model : Option Str := none
  commentId : Nat
  created : Option Str := none
  linkedFromIssue : Option Nat := none
deriving DecidableEq

/-- `searchCommentsForAgent`, as a pure function over the comment list the
GitHub API returns (the API call with `sort: created, direction: desc` is
modelled by the caller-supplied list). -/
def searchCommentsForAgent : List IssueComment → Option ExistingAgentInfo
  | [] => none
  | c :: rest =>
    if isLettaBot c && strTruthy c.body then
      match Meta.parseMetadata (c.body.getD []) with
      | some md =>
        some { agentId := md.agentId, conversationId := md.conversationId,
               model := md.model, commentId := c.id, created := md.created }
      | none => searchCommentsForAgent rest
    else searchCommentsForAgent rest

/-- The loop over linked issues in `findExistingAgent`: first hit wins and
is tagged with the issue it came from. -/
def firstLinked (lister : Nat → List IssueComment) :
    List Nat → Option ExistingAgentInfo
  | [] => none
  | n :: ns =>
    match searchCommentsForAgent (lister n) with
    | some r => some { r with linkedFromIssue := some n }
    | none => firstLinked lister ns

/-- `findExistingAgent`, over a pure comment lister (issue number to its
comments, newest first).  The `try`/`catch` transport-error fallbacks of
the source return null or skip one linked issue; with a total lister those
paths are never taken. -/
def findExistingAgent (lister : Nat → List IssueComment) (issueNumber : Nat)
    (isPR : Bool) (prBody : Option Str) : Option ExistingAgentInfo :=
  match searchCommentsForAgent (lister issueNumber) with
  | some result => some result
  | none =>
    if isPR && strTruthy prBody then
      firstLinked lister (extractLinkedIssues prBody)
    else none

end FEA

/-! ### Trigger parser (letta/trigger-parser.ts) -/

namespace Trigger

/-- `ParsedTrigger` of the trigger parser. -/
structure ParsedTrigger where
  lettaArgs : List Str
  prompt : Str
  warnings : List Str
  parseError : Option Str
deriving DecidableEq

/-- `BLOCKED_FLAGS`: flags the system controls, stripped with a warning. -/
def BLOCKED_FLAGS : List Str :=
  [str "-p", str "--prompt", str "--output-format", str "--yolo", str "-y"]

/-- `FLAGS_WITH_VALUES`: flags whose value token is skipped too. -/
def FLAGS_WITH_VALUES : List Str :=
  [str "-p", str "--prompt", str "-m", str "--model", str "--agent",
   str "--output-format"]

/-- The quote-aware whitespace tokenizer `parseArgs` (state: open quote
character, token accumulated so far, remaining input). -/
def parseArgsGo : Option Char → Str → Str → List Str
  | _, current, [] => if current.isEmpty then [] else [current]
  | some q, current, c :: rest =>
    if c = q then parseArgsGo none current rest
    else parseArgsGo (some q) (current ++ [c]) rest
  | none, current, c :: rest =>
    if c = '"' || c = Char.ofNat 39 then parseArgsGo (some c) current rest
    else if c = ' ' || c = '\t' then
      (if current.isEmpty then [] else [current]) ++ parseArgsGo none [] rest
    else parseArgsGo none (current ++ [c]) rest

/-- `parseArgs` of the trigger parser. -/
def parseArgs (input : Str) : List Str := parseArgsGo none [] input

/-- The while-loop of `parseTrigger` that filters blocked flags: returns
the kept arguments and the blocked flags found, in order.  An empty token
(`!arg`) is skipped; a blocked value-consuming flag also skips the next
token when one exists (`i + 1 < args.length`). -/
def filterBlockedLoop : List Str → List Str × List Str
  | [] => ([], [])
  | a :: rest =>
    if a.isEmpty then filterBlockedLoop rest
    else if a ∈ BLOCKED_FLAGS then
      if a ∈ FLAGS_WITH_VALUES then
        match rest with
        | [] => ((filterBlockedLoop []).1, a :: (filterBlockedLoop []).2)
        | _ :: rest2 =>
          ((filterBlockedLoop rest2).1, a :: (filterBlockedLoop rest2).2)
      else ((filterBlockedLoop rest).1, a :: (filterBlockedLoop rest).2)
    else (a :: (filterBlockedLoop rest).1, (filterBlockedLoop rest).2)

/-- Model of the regex `/^\s*\[([^\]]*)\]?\s*([\s\S]*)/`: leading
whitespace, an opening bracket, content up to the first `]` (or the end),
an optional `]`, whitespace, and the remainder. -/
def bracketMatch (s : Str) : Option (Str × Str) :=
  let t := s.dropWhile wsChar
  if t.head? = some '[' then
    let r := t.tail
    let content := r.takeWhile (fun c => c ≠ ']')
    let afterContent := r.dropWhile (fun c => c ≠ ']')
    let afterBracket :=
      if afterContent.head? = some ']' then afterContent.tail
      else afterContent
    some (content, afterBracket.dropWhile wsChar)
  else none

/-- Model of `Array.join(", ")`. -/
def joinCommaSp : List Str → Str
  | [] => []
  | [l] => l
  | l :: l' :: ls => l ++ str ", " ++ joinCommaSp (l' :: ls)

/-- `parseTrigger` of `letta/trigger-parser.ts`. -/
def parseTrigger (triggerPhrase commentBody : Str) : ParsedTrigger :=
  match findSub (lowerL triggerPhrase) (lowerL commentBody) with
  | none =>
    { lettaArgs := [], prompt := commentBody, warnings := [],
      parseError := none }
  | some triggerIndex =>
    let afterTrigger := commentBody.drop (triggerIndex + triggerPhrase.length)
    match bracketMatch afterTrigger with
    | none =>
      { lettaArgs := [], prompt := trimL afterTrigger, warnings := [],
        parseError := none }
    | some (bracketContent, restOfComment) =>
      if ¬ (']' ∈ afterTrigger) ∧ ¬ bracketContent.isEmpty then
        { lettaArgs := [], prompt := trimL afterTrigger, warnings := [],
          parseError := some (str "Unclosed bracket in trigger syntax") }
      else if (trimL bracketContent).isEmpty then
        { lettaArgs := [], prompt := trimL restOfComment, warnings := [],
          parseError := none }
      else
        let filtered := filterBlockedLoop (parseArgs bracketContent)
        { lettaArgs := filtered.1,
          prompt := trimL restOfComment,
          warnings :=
            if ¬ filtered.2.isEmpty then
              [str "Ignored flags: " ++ joinCommaSp filtered.2]
            else [],
          parseError := none }

end Trigger

/-! ### Runner (runner/run-letta.ts, current variant) -/

namespace Runner

/-- `BASE_ARGS`, always appended last. -/
def BASE_ARGS : List Str := [str "--output-format", str "stream-json"]

/-- `LettaOptions` of the runner.  The source fields are
`string | undefined` and only ever tested for truthiness; the empty string
stands for both `undefined` and `""` (which JavaScript treats alike). -/
structure LettaOptions where
  lettaArgs : Str := []
  model : Str := []
  agentId : Str := []
  conversationId : Str := []
  createNewConversation : Bool := false
deriving DecidableEq

/-- Model of the external `shell-quote` `parse` dependency restricted to
plain flag strings: quote-aware whitespace splitting (shell operators,
which the source filters out of the result, are out of scope). -/
def parseShellArgs (input : Str) : List Str := Trigger.parseArgs input

/-- `PreparedConfig` of the runner. -/
structure PreparedConfig where
  lettaArgs : List Str
  promptPath : Str
  env : List (Str × Str)
deriving DecidableEq

/-- `prepareRunConfig` of the current `run-letta.ts`: conversation / agent
resumption flags, model flag, `--yolo`, `-p`, the user's parsed custom
arguments, then `BASE_ARGS` last.  The ambient
`process.env.INPUT_ACTION_INPUTS_PRESENT` is passed explicitly
(`none` for an absent or empty variable). -/
def prepareRunConfig (inputActionInputsPresent : Option Str)
    (promptPath : Str) (options : LettaOptions) : PreparedConfig :=
  let idArgs : List Str :=
    if ¬ options.conversationId.isEmpty then
      [str "--conversation", options.conversationId]
    else if ¬ options.agentId.isEmpty ∧ options.createNewConversation then
      [str "--agent", options.agentId, str "--new"]
    else if ¬ options.agentId.isEmpty then [str "--agent", options.agentId]
    else if options.createNewConversation then [str "--new"]
    else []
  let modelArgs : List Str :=
    if ¬ options.model.isEmpty then [str "-m", options.model] else []
  let userArgs : List Str :=
    if ¬ (trimL options.lettaArgs).isEmpty then parseShellArgs options.lettaArgs
    else []
  { lettaArgs := idArgs ++ modelArgs ++ [str "--yolo", str "-p"] ++ userArgs
      ++ BASE_ARGS,
    promptPath := promptPath,
    env := match inputActionInputsPresent with
           | some v => [(str "GITHUB_ACTION_INPUTS", v)]
           | none => [] }

end Runner

/-! ### Comment terminal rendering (github/operations/comment-logic.ts) -/

namespace CL

/-- `ExecutionDetails` of `comment-logic.ts` (durations in integer
milliseconds; the cost field is never read by `updateCommentBody`). -/
structure ExecutionDetails where
  total_cost_usd : Option Nat := none
  duration_ms : Option Nat := none
  duration_api_ms : Option Nat := none
deriving DecidableEq

/-- `CommentUpdateInput` of `comment-logic.ts`. -/
structure CommentUpdateInput where
  currentBody : Str
  actionFailed : Bool
  executionDetails : Option ExecutionDetails := none
  jobUrl : Str
  branchLink : Option Str := none
  prLink : Option Str := none
  branchName : Option Str := none
  triggerUsername : Option Str := none
  errorDetails : Option Str := none
  agentId : Option Str := none
  conversationId : Option Str := none
  model : Option Str := none
deriving DecidableEq

/-- Replace the first match found by `matcher` (which reports the matched
length at the head of its argument) with the empty string. -/
def replaceFirstWith (matcher : Str → Option Nat) : Nat → Str → Str
  | 0, s => s
  | _ + 1, [] => []
  | fuel + 1, c :: rest =>
    match matcher (c :: rest) with
    | some len => (c :: rest).drop len
    | none => c :: replaceFirstWith matcher fuel rest

/-- Replace every match found by `matcher` with the empty string
(a `/.../g` `replace`). -/
def replaceAllWith (matcher : Str → Option Nat) : Nat → Str → Str
  | 0, s => s
  | _ + 1, [] => []
  | fuel + 1, c :: rest =>
    match matcher (c :: rest) with
    | some len =>
      if len = 0 then c :: replaceAllWith matcher fuel rest
      else replaceAllWith matcher fuel ((c :: rest).drop len)
    | none => c :: replaceAllWith matcher fuel rest

/-- Remove the first literal occurrence of `pat`
(string-argument `replace` with an empty replacement). -/
def replaceFirstStrGo : Nat → Str → Str → Str
  | 0, _, s => s
  | _ + 1, _, [] => []
  | fuel + 1, pat, c :: rest =>
    if pat.isPrefixOf (c :: rest) then (c :: rest).drop pat.length
    else c :: replaceFirstStrGo fuel pat rest

/-- Remove the first literal occurrence of `pat` from `s`. -/
def replaceFirstStr (pat s : Str) : Str := replaceFirstStrGo (s.length + 1) pat s

/-- Last starting index of `pat` in the string, if any. -/
def lastIdxSub (pat : Str) : Str → Option Nat
  | [] => if pat.isPrefixOf ([] : Str) then some 0 else none
  | c :: rest =>
    match lastIdxSub pat rest with
    | some i => some (i + 1)
    | none => if pat.isPrefixOf (c :: rest) then some 0 else none

/-- Match `\s*<img[^>]*>` at the head of `s`; returns the consumed
length. -/
def matchImgTag (s : Str) : Option Nat :=
  let wsn := (s.takeWhile wsChar).length
  let r := s.drop wsn
  if (str "<img").isPrefixOf r then
    let inner := (r.drop 4).takeWhile (fun c => c ≠ '>')
    match (r.drop 4).drop inner.length with
    | '>' :: _ => some (wsn + 4 + inner.length + 1)
    | _ => none
  else none

/-- Match the tail `[…\.]{1,3}(?:\s*<img[^>]*>)?` of the working pattern
at the head of `s` (greedy, at least one dot required). -/
def matchWorkingTail (s : Str) : Option Nat :=
  let dots := s.takeWhile (fun c => c = '…' || c = '.')
  let dn := min 3 dots.length
  if dn = 0 then none
  else some (dn + (matchImgTag (s.drop dn)).getD 0)

/-- Match `/Letta Code is working[…\.]{1,3}(?:\s*<img[^>]*>)?/i` at the
head of `s`. -/
def matchWorkingAt (s : Str) : Option Nat :=
  if lowerL (s.take 21) = str "letta code is working" then
    match matchWorkingTail (s.drop 21) with
    | some t => some (21 + t)
    | none => none
  else none

/-- Match `/I\x27ll analyze this and get back to you\.?\s*/i` at the head
of `s`. -/
def matchAnalyzeAt (s : Str) : Option Nat :=
  let pat := str "i\x27ll analyze this and get back to you"
  if lowerL (s.take pat.length) = pat then
    let r := s.drop pat.length
    let d : Nat := match r with
                   | '.' :: _ => 1
                   | _ => 0
    some (pat.length + d + ((r.drop d).takeWhile wsChar).length)
  else none

/-- Match `\[Create .* PR\]\((.*)\)$` against one whole line (greedy `.*`:
the capture runs from the last ` PR](` to the closing parenthesis ending
the line); returns the captured URL. -/
def matchPrLinkLine (line : Str) : Option Str :=
  if (str "[Create ").isPrefixOf line then
    if line.getLast? = some ')' then
      match lastIdxSub (str " PR](") (line.drop 8) with
      | some j =>
        let start := 8 + j + 5
        if start ≤ line.length - 1 then
          some ((line.take (line.length - 1)).drop start)
        else none
      | none => none
    else none
  else none

/-- First match of the multiline pattern `/\[Create .* PR\]\((.*)\)$/m`:
scan every position; a match runs from the position to the end of its
line.  Returns the matched text and the captured URL. -/
def findPrLink : Nat → Str → Option (Str × Str)
  | 0, _ => none
  | _ + 1, [] => none
  | fuel + 1, c :: rest =>
    let line := (c :: rest).takeWhile (fun x => x ≠ '\n')
    match matchPrLinkLine line with
    | some url => some (line, url)
    | none => findPrLink fuel rest

/-- Character class `[a-zA-Z0-9-]` of the username pattern. -/
def isUserChar (c : Char) : Bool := c.isAlpha || c.isDigit || c = '-'

/-- First capture of `/@([a-zA-Z0-9-]+)/`. -/
def findUsername : Nat → Str → Option Str
  | 0, _ => none
  | _ + 1, [] => none
  | fuel + 1, '@' :: rest =>
    let run := rest.takeWhile isUserChar
    if run.isEmpty then findUsername fuel rest else some run
  | fuel + 1, _ :: rest => findUsername fuel rest

/-- First capture of `/\((https:\/\/.*)\)/`: an opening parenthesis
followed by `https://`, captured greedily up to the last closing
parenthesis on the same line. -/
def findParenHttps : Nat → Str → Option Str
  | 0, _ => none
  | _ + 1, [] => none
  | fuel + 1, '(' :: rest =>
    if (str "https://").isPrefixOf rest then
      let line := rest.takeWhile (fun c => c ≠ '\n')
      match lastIdxSub (str ")") line with
      | some j =>
        if 8 ≤ j then some (line.take j) else findParenHttps fuel rest
      | none => findParenHttps fuel rest
    else findParenHttps fuel rest
  | fuel + 1, _ :: rest => findParenHttps fuel rest

/-- Character class `[^"\x27\)]` of the branch-name pattern. -/
def isBranchChar (c : Char) : Bool :=
  ¬ (c = '"' || c = Char.ofNat 39 || c = ')')

/-- First capture of `/tree\/([^"\x27\)]+)/`. -/
def findTreeName : Nat → Str → Option Str
  | 0, _ => none
  | _ + 1, [] => none
  | fuel + 1, c :: rest =>
    if (str "tree/").isPrefixOf (c :: rest) then
      let run := ((c :: rest).drop 5).takeWhile isBranchChar
      if run.isEmpty then findTreeName fuel rest else some run
    else findTreeName fuel rest

/-- First captures of `/github\.com\/([^\/]+)\/([^\/]+)\//`. -/
def findRepoMatch : Nat → Str → Option (Str × Str)
  | 0, _ => none
  | _ + 1, [] => none
  | fuel + 1, c :: rest =>
    if (str "github.com/").isPrefixOf (c :: rest) then
      let r1 := (c :: rest).drop 11
      let seg1 := r1.takeWhile (fun x => x ≠ '/')
      let r2 := r1.drop seg1.length
      if seg1.isEmpty then findRepoMatch fuel rest
      else
        match r2 with
        | '/' :: r3 =>
          let seg2 := r3.takeWhile (fun x => x ≠ '/')
          if seg2.isEmpty then findRepoMatch fuel rest
          else
            match r3.drop seg2.length with
            | '/' :: _ => some (seg1, seg2)
            | _ => findRepoMatch fuel rest
        | _ => findRepoMatch fuel rest
    else findRepoMatch fuel rest

/-- First capture of `/\(([^)]+)\)/`. -/
def findParenCapture : Nat → Str → Option Str
  | 0, _ => none
  | _ + 1, [] => none
  | fuel + 1, '(' :: rest =>
    let run := rest.takeWhile (fun c => c ≠ ')')
    if run.isEmpty then findParenCapture fuel rest
    else
      match rest.drop run.length with
      | ')' :: _ => some run
      | _ => findParenCapture fuel rest
  | fuel + 1, _ :: rest => findParenCapture fuel rest

/-- Match `/\n?\[View …\]\([^\)]+\)/` at the head of `s` for a given link
tag such as `[View job run](`. -/
def matchViewLinkAt (tag : Str) (s : Str) : Option Nat :=
  let nl : Nat := match s with
                  | '\n' :: _ => 1
                  | _ => 0
  let r := s.drop nl
  if tag.isPrefixOf r then
    let inner := (r.drop tag.length).takeWhile (fun c => c ≠ ')')
    if inner.isEmpty then none
    else
      match (r.drop tag.length).drop inner.length with
      | ')' :: _ => some (nl + tag.length + inner.length + 1)
      | _ => none
  else none

/-- Match `/\n*---\n*Duration: [0-9]+m? [0-9]+s/` at the head of `s`. -/
def matchDurationAt (s : Str) : Option Nat :=
  let n1 := (s.takeWhile (fun c => c = '\n')).length
  let r1 := s.drop n1
  if (str "---").isPrefixOf r1 then
    let r2 := r1.drop 3
    let n2 := (r2.takeWhile (fun c => c = '\n')).length
    let r3 := r2.drop n2
    if (str "Duration: ").isPrefixOf r3 then
      let r4 := r3.drop 10
      let d1 := r4.takeWhile Char.isDigit
      if d1.isEmpty then none
      else
        let r5 := r4.drop d1.length
        let m1 : Nat := match r5 with
                        | 'm' :: _ => 1
                        | _ => 0
        match r5.drop m1 with
        | ' ' :: r7 =>
          let d2 := r7.takeWhile Char.isDigit
          if d2.isEmpty then none
          else
            match r7.drop d2.length with
            | 's' :: _ =>
              some (n1 + 3 + n2 + 10 + d1.length + m1 + 1 + d2.length + 1)
            | _ => none
        | _ => none
    else none
  else none

/-- One optional `(?:\n.*KEY.*)?` group of the footer pattern: a newline
followed by a whole line containing `pat`. -/
def matchOptLine (pat : Str) (t : Str) : Option Nat :=
  match t with
  | '\n' :: r =>
    let l2 := r.takeWhile (fun c => c ≠ '\n')
    if containsSub pat l2 then some (1 + l2.length) else none
  | _ => none

/-- Match the visible-footer pattern
`/\n*---\n+🤖 \*\*Agent:\*\*.*(?:\n.*View in ADE.*)?(?:\n.*Chat with this agent.*)?/`
at the head of `s`. -/
def matchFooterAt (s : Str) : Option Nat :=
  let n1 := (s.takeWhile (fun c => c = '\n')).length
  let r1 := s.drop n1
  if (str "---").isPrefixOf r1 then
    let r2 := r1.drop 3
    let n2 := (r2.takeWhile (fun c => c = '\n')).length
    if n2 = 0 then none
    else
      let r3 := r2.drop n2
      let tag := str "🤖 **Agent:**"
      if tag.isPrefixOf r3 then
        let rest1 := r3.drop tag.length
        let line1 := (rest1.takeWhile (fun c => c ≠ '\n')).length
        let afterL1 := rest1.drop line1
        let base := n1 + 3 + n2 + tag.length + line1
        let o1 := (matchOptLine (str "View in ADE") afterL1).getD 0
        let o2 := (matchOptLine (str "Chat with this agent")
          (afterL1.drop o1)).getD 0
        some (base + o1 + o2)
      else none
  else none

/-- `durationStr` computation: `Math.round(duration_ms / 1000)` split into
minutes and seconds. -/
def durationString (ms : Nat) : Str :=
  let totalSeconds := (ms + 500) / 1000
  let minutes := totalSeconds / 60
  let seconds := totalSeconds % 60
  if minutes > 0 then
    natToStr minutes ++ str "m " ++ natToStr seconds ++ str "s"
  else natToStr seconds ++ str "s"

/-- Default of the environment-configurable `GITHUB_SERVER_URL` constant
imported from `github/api/config.ts` (the environment override is out of
scope). -/
def GITHUB_SERVER_URL : Str := str "https://github.com"

/-- `updateCommentBody` of `comment-logic.ts`.  `encodeUrl` stands for
`ensureProperlyEncodedUrl` (whose WHATWG `URL`-parsing core is an external
platform interface); `now` stands for `new Date().toISOString()` inside
the metadata formatter. -/
def updateCommentBody (encodeUrl : Str → Option Str) (now : Str)
    (input : CommentUpdateInput) : Str :=
  let originalBody := input.currentBody
  let bodyContent0 :=
    trimL (replaceFirstWith matchWorkingAt (originalBody.length + 1)
      originalBody)
  let bodyContent1 :=
    trimL (replaceAllWith matchAnalyzeAt (bodyContent0.length + 1)
      bodyContent0)
  let prPair : Str × Str :=
    match findPrLink (bodyContent1.length + 1) bodyContent1 with
    | some (matched, url) =>
      if url.isEmpty then ([], bodyContent1)
      else
        match encodeUrl url with
        | some encoded => (encoded, trimL (replaceFirstStr matched bodyContent1))
        | none => ([], bodyContent1)
    | none => ([], bodyContent1)
  let prLinkFromContent := prPair.1
  let bodyContent2 := prPair.2
  let durationStr : Str :=
    match input.executionDetails with
    | some ed =>
      match ed.duration_ms with
      | some ms => durationString ms
      | none => []
    | none => []
  let header : Str :=
    if input.actionFailed then
      str "**Letta Code encountered an error" ++
        (if ¬ durationStr.isEmpty then str " after " ++ durationStr else []) ++
        str "**"
    else
      let usernameMatch := findUsername (bodyContent2.length + 1) bodyContent2
      let username : Str :=
        match input.triggerUsername with
        | some u =>
          if ¬ u.isEmpty then u
          else match usernameMatch with
               | some m => m
               | none => str "user"
        | none =>
          match usernameMatch with
          | some m => m
          | none => str "user"
      str "**Letta Code finished @" ++ username ++ str "\x27s task" ++
        (if ¬ durationStr.isEmpty then str " in " ++ durationStr else []) ++
        str "**"
  let links0 : Str := str " —— [View job](" ++ input.jobUrl ++ str ")"
  let links1 : Str :=
    if strTruthy input.branchName || strTruthy input.branchLink then
      let branchUrl0 : Str :=
        match input.branchLink with
        | some bl =>
          if bl.isEmpty then []
          else
            match findParenHttps (bl.length + 1) bl with
            | some u => u
            | none => []
        | none => []
      let finalBranchName0 : Str :=
        match input.branchName with
        | some bn => bn
        | none => []
      let finalBranchName : Str :=
        if ¬ finalBranchName0.isEmpty then finalBranchName0
        else
          match input.branchLink with
          | some bl =>
            if bl.isEmpty then []
            else
              match findTreeName (bl.length + 1) bl with
              | some n => n
              | none => []
          | none => []
      let branchUrl : Str :=
        if branchUrl0.isEmpty ∧ ¬ finalBranchName.isEmpty then
          match findRepoMatch (input.jobUrl.length + 1) input.jobUrl with
          | some (owner, repo) =>
            GITHUB_SERVER_URL ++ str "/" ++ owner ++ str "/" ++ repo ++
              str "/tree/" ++ finalBranchName
          | none => branchUrl0
        else branchUrl0
      if ¬ finalBranchName.isEmpty ∧ ¬ branchUrl.isEmpty then
        links0 ++ str " • [`" ++ finalBranchName ++ str "`](" ++ branchUrl ++
          str ")"
      else if ¬ finalBranchName.isEmpty then
        links0 ++ str " • `" ++ finalBranchName ++ str "`"
      else links0
    else links0
  let prUrl : Str :=
    if ¬ prLinkFromContent.isEmpty then prLinkFromContent
    else
      match input.prLink with
      | some pl =>
        if pl.isEmpty then []
        else (findParenCapture (pl.length + 1) pl).getD []
      | none => []
  let links2 : Str :=
    if ¬ prUrl.isEmpty then
      links1 ++ str " • [Create PR ➔](" ++ prUrl ++ str ")"
    else links1
  let newBody0 := header ++ links2
  let newBody1 :=
    if input.actionFailed ∧ strTruthy input.errorDetails then
      newBody0 ++ str "\n\n```\n" ++ input.errorDetails.getD [] ++ str "\n```"
    else newBody0
  let newBody2 := newBody1 ++ str "\n\n---\n"
  let bodyContent3 :=
    replaceAllWith (matchViewLinkAt (str "[View job run]("))
      (bodyContent2.length + 1) bodyContent2
  let bodyContent4 :=
    replaceAllWith (matchViewLinkAt (str "[View branch]("))
      (bodyContent3.length + 1) bodyContent3
  let bodyContent5 :=
    replaceAllWith matchDurationAt (bodyContent4.length + 1) bodyContent4
  let bodyContent6 :=
    if (trimL bodyContent5).isEmpty then
      if input.actionFailed then
        str "The agent encountered an issue before updating the comment."
      else str "Task completed."
    else bodyContent5
  let newBody3 := newBody2 ++ bodyContent6
  let final : Str :=
    match input.agentId with
    | some aid =>
      if aid.isEmpty then newBody3
      else
        let nb1 :=
          if Meta.hasMetadata newBody3 then
            let ms := (findSub Meta.START newBody3).getD 0
            let me :=
              match (findSub Meta.ENDT (newBody3.drop ms)).map (· + ms) with
              | some k => k + Meta.ENDT.length
              | none => 2
            newBody3.take ms ++ newBody3.drop me
          else newBody3
        let nb2 := replaceAllWith matchFooterAt (nb1.length + 1) nb1
        let adeUrl := str "https://app.letta.com/agents/" ++ aid
        let footer0 :=
          str "\n\n---\n🤖 **Agent:** [`" ++ aid ++ str "`](" ++ adeUrl ++
            str ")"
        let footer1 := footer0 ++
          (match input.conversationId with
           | some cid =>
             if cid.isEmpty then []
             else str " • **Conversation:** `" ++ cid ++ str "`"
           | none => [])
        let footer2 := footer1 ++
          (match input.model with
           | some mdl =>
             if mdl.isEmpty then [] else str " • **Model:** " ++ mdl
           | none => [])
        let footer3 := footer2 ++ str "\n[View in ADE](" ++ adeUrl ++
          str ") • [View job run](" ++ input.jobUrl ++ str ")"
        let cliCommand : Str :=
          match input.conversationId with
          | some cid =>
            if cid.isEmpty then str "letta --agent " ++ aid
            else str "letta --conv " ++ cid
          | none => str "letta --agent " ++ aid
        let footer4 := footer3 ++
          str "\n💻 Chat with this agent in your terminal using [Letta Code](https://github.com/letta-ai/letta-code): `" ++
          cliCommand ++ str "`"
        let nb3 := trimL nb2 ++ footer4
        let metadata := Meta.formatMetadata
          { agentId := aid, conversationId := input.conversationId,
            model := input.model } now
        nb3 ++ str "\n\n" ++ metadata
    | none => newBody3
  trimL final

end CL

/-! ### Concrete scenario data and proof-side devices for the claims -/

/-- Whether the text contains a `#` immediately followed by a decimal
digit — the shape every `#N` issue reference (and the numeric tail of
every closing-keyword match) requires. -/
def hasHashNum : Str → Bool
  | [] => false
  | [_] => false
  | a :: b :: rest => (a = '#' && b.isDigit) || hasHashNum (b :: rest)

/-- Comment lister for the resolver scenario: the PR thread (number 10)
holds one ordinary user comment with no marker; issue 42 holds one
recognized bot comment whose marker records agent `ag-9` and conversation
`c9`; every other thread is empty. -/
def c2Lister : Nat → List FEA.IssueComment := fun n =>
  if n = 42 then
    [{ id := 7,
       user := some { id := FEA.LETTA_APP_BOT_ID, type := str "Bot",
                      login := str "letta-code[bot]" },
       body := some (str "Working on it\n\n<!-- letta-metadata\nagent_id: ag-9\nconversation_id: c9\ncreated: 2024-01-01T00:00:00Z\n-->") }]
  else if n = 10 then
    [{ id := 3,
       user := some { id := 555, type := str "User", login := str "alice" },
       body := some (str "Looks good to me") }]
  else []

/-- Terminal-rendering input for a failed run in which the agent never
touched the placeholder body: no execution details, no branch, no agent
id. -/
def c6FailedInput : CL.CommentUpdateInput :=
  { currentBody := str "Letta Code is working…",
    actionFailed := true,
    jobUrl := str "https://github.com/o/r/actions/runs/1" }

/-- Terminal-rendering input for a successful run: the agent rewrote the
comment to `Done.`; the run is attributed to `alice` and agent `ag-1`. -/
def c6SuccessInput : CL.CommentUpdateInput :=
  { currentBody := str "Done.",
    actionFailed := false,
    jobUrl := str "https://github.com/o/r/actions/runs/1",
    triggerUsername := some (str "alice"),
    agentId := some (str "ag-1") }

/-- The claim's description of the blocked-flag filter, stated as a
function on token lists to be compared with the source's loop: a token in
the blocked set is removed from the argument list — together with the
immediately following value token when the flag is in the value-consuming
set — and its name is recorded; every other token is kept in its original
position. -/
def filterSpec : List Str → List Str × List Str
  | [] => ([], [])
  | a :: rest =>
    if a ∈ Trigger.BLOCKED_FLAGS then
      if a ∈ Trigger.FLAGS_WITH_VALUES then
        match rest with
        | [] => ([], [a])
        | _ :: rest2 => ((filterSpec rest2).1, a :: (filterSpec rest2).2)
      else ((filterSpec rest).1, a :: (filterSpec rest).2)
    else (a :: (filterSpec rest).1, (filterSpec rest).2)

/-- The user-argument token list `prepareRunConfig` appends (the
`userArgs` let-binding of the source, named so theorems can refer to the
corresponding span of the output). -/
def userArgsOf (options : Runner.LettaOptions) : List Str :=
  if ¬ (trimL options.lettaArgs).isEmpty then
    Runner.parseShellArgs options.lettaArgs
  else []

/-- The tokens `prepareRunConfig` places before the prompt flag: identity
flags, model flag, auto-approval flag (the `idArgs ++ modelArgs ++
["--yolo"]` span of the source, named for the same purpose). -/
def preArgsOf (options : Runner.LettaOptions) : List Str :=
  (if ¬ options.conversationId.isEmpty then
     [str "--conversation", options.conversationId]
   else if ¬ options.agentId.isEmpty ∧ options.createNewConversation then
     [str "--agent", options.agentId, str "--new"]
   else if ¬ options.agentId.isEmpty then [str "--agent", options.agentId]
   else if options.createNewConversation then [str "--new"]
   else [])
  ++ (if ¬ options.model.isEmpty then [str "-m", options.model] else [])
  ++ [str "--yolo"]

/-! ### Generic facts about the string primitives -/

theorem pfx_of_pfx_append_cons {c : Char} {b : Str} :
    ∀ (a pat : Str), c ∉ pat → pat <+: a ++ c :: b → pat <+: a := by
  intro a
  induction a with
  | nil =>
    intro pat hc h
    cases pat with
    | nil => exact List.nil_prefix
    | cons p pt =>
      rw [List.nil_append, List.cons_prefix_cons] at h
      obtain ⟨rfl, -⟩ := h
      exact absurd (List.mem_cons_self p pt) hc
  | cons x a' ih =>
    intro pat hc h
    cases pat with
    | nil => exact List.nil_prefix
    | cons p pt =>
      rw [List.cons_append, List.cons_prefix_cons] at h
      exact List.cons_prefix_cons.mpr
        ⟨h.1, ih pt (fun hx => hc (List.mem_cons_of_mem p hx)) h.2⟩

theorem pfx_append_cons_iff {pat a b : Str} {c : Char} (hc : c ∉ pat) :
    pat <+: a ++ c :: b ↔ pat <+: a :=
  ⟨fun h => pfx_of_pfx_append_cons a pat hc h,
   fun h => h.trans (List.prefix_append a (c :: b))⟩

theorem isPrefixOf_eq_false_of_not_pfx {pat s : Str} (h : ¬ pat <+: s) :
    pat.isPrefixOf s = false := by
  cases hb : pat.isPrefixOf s with
  | false => rfl
  | true => exact absurd (List.isPrefixOf_iff_prefix.mp hb) h

theorem isPrefixOf_append_cons_eq {pat a b : Str} {c : Char} (hc : c ∉ pat) :
    pat.isPrefixOf (a ++ c :: b) = pat.isPrefixOf a := by
  have hiff := @pfx_append_cons_iff pat a b c hc
  cases h1 : pat.isPrefixOf (a ++ c :: b) <;> cases h2 : pat.isPrefixOf a
  case false.false => rfl
  case false.true =>
    have := List.isPrefixOf_iff_prefix.mpr (hiff.mpr (List.isPrefixOf_iff_prefix.mp h2))
    rw [h1] at this
    exact absurd this (by simp)
  case true.false =>
    have := List.isPrefixOf_iff_prefix.mpr (hiff.mp (List.isPrefixOf_iff_prefix.mp h1))
    rw [h2] at this
    exact absurd this (by simp)
  case true.true => rfl

theorem findSub_of_isPrefixOf {pat s : Str} (h : pat.isPrefixOf s) :
    findSub pat s = some 0 := by
  cases s <;> simp [findSub, h]

theorem findSub_nil_of_ne {pat : Str} (h : pat ≠ []) :
    findSub pat ([] : Str) = none := by
  cases pat with
  | nil => exact absurd rfl h
  | cons p pt => simp [findSub, List.isPrefixOf]

theorem opt_map_or (o o' : Option Nat) (f : Nat → Nat) :
    (o.or o').map f = (o.map f).or (o'.map f) := by
  cases o <;> rfl

theorem opt_map_shift (o : Option Nat) (k m : Nat) :
    (o.map (· + k)).map (· + m) = o.map (· + (k + m)) := by
  cases o with
  | none => rfl
  | some v => simp [Nat.add_assoc]

theorem findSub_append_cons {pat : Str} (hne : pat ≠ []) {c : Char} (hc : c ∉ pat)
    (a b : Str) :
    findSub pat (a ++ c :: b) =
      (findSub pat a).or ((findSub pat b).map (· + (a.length + 1))) := by
  induction a with
  | nil =>
    rw [List.nil_append, findSub_nil_of_ne hne, Option.none_or]
    have hp : pat.isPrefixOf (c :: b) = false := by
      apply isPrefixOf_eq_false_of_not_pfx
      have : ¬ pat <+: ([] : Str) ++ c :: b := by
        rw [pfx_append_cons_iff hc]
        intro h
        exact hne (List.prefix_nil.mp h)
      rwa [List.nil_append] at this
    simp only [findSub, hp, Bool.false_eq_true, if_false]
    cases findSub pat b <;> simp
  | cons x a' ih =>
    have key : pat.isPrefixOf (x :: a' ++ c :: b) = pat.isPrefixOf (x :: a') :=
      isPrefixOf_append_cons_eq (a := x :: a') hc
    show findSub pat (x :: (a' ++ c :: b)) = _
    simp only [findSub]
    rw [show x :: (a' ++ c :: b) = (x :: a') ++ c :: b from rfl, key, ih]
    cases hp : pat.isPrefixOf (x :: a') with
    | true => simp
    | false =>
      simp only [Bool.false_eq_true, if_false]
      rw [opt_map_or, opt_map_shift]
      simp [List.length_cons, Nat.add_assoc, Nat.add_comm 1]

theorem countSub_nil_of_ne {pat : Str} (h : pat ≠ []) :
    countSub pat ([] : Str) = 0 := by
  cases pat with
  | nil => exact absurd rfl h
  | cons p pt => simp [countSub, List.isPrefixOf]

theorem countSub_append_cons {pat : Str} (hne : pat ≠ []) {c : Char} (hc : c ∉ pat)
    (a b : Str) :
    countSub pat (a ++ c :: b) = countSub pat a + countSub pat b := by
  induction a with
  | nil =>
    rw [List.nil_append, countSub_nil_of_ne hne, Nat.zero_add]
    have hp : pat.isPrefixOf (c :: b) = false := by
      apply isPrefixOf_eq_false_of_not_pfx
      have : ¬ pat <+: ([] : Str) ++ c :: b := by
        rw [pfx_append_cons_iff hc]
        intro h
        exact hne (List.prefix_nil.mp h)
      rwa [List.nil_append] at this
    simp [countSub, hp]
  | cons x a' ih =>
    have key : pat.isPrefixOf (x :: a' ++ c :: b) = pat.isPrefixOf (x :: a') :=
      isPrefixOf_append_cons_eq (a := x :: a') hc
    show countSub pat (x :: (a' ++ c :: b)) = _
    simp only [countSub]
    rw [show x :: (a' ++ c :: b) = (x :: a') ++ c :: b from rfl, key, ih]
    cases hp : pat.isPrefixOf (x :: a') with
    | true => simp [countSub, hp]; omega
    | false => simp [countSub, hp]

theorem findSub_append_headc {p0 : Char} {pt : Str} (a b : Str) (ha : p0 ∉ a) :
    findSub (p0 :: pt) (a ++ b) = (findSub (p0 :: pt) b).map (· + a.length) := by
  induction a with
  | nil =>
    rw [List.nil_append]
    cases h : findSub (p0 :: pt) b <;> simp
  | cons x a' ih =>
    have hx : p0 ≠ x := fun h => ha (h ▸ List.mem_cons_self x a')
    have hp : (p0 :: pt).isPrefixOf (x :: (a' ++ b)) = false := by
      simp [List.isPrefixOf, beq_eq_false_iff_ne, hx]
    show findSub (p0 :: pt) (x :: (a' ++ b)) = _
    simp only [findSub, hp, Bool.false_eq_true, if_false]
    rw [ih (fun h => ha (List.mem_cons_of_mem x h)), opt_map_shift]
    simp [List.length_cons, Nat.add_comm 1]

theorem countSub_append_headc {p0 : Char} {pt : Str} (a b : Str) (ha : p0 ∉ a) :
    countSub (p0 :: pt) (a ++ b) = countSub (p0 :: pt) b := by
  induction a with
  | nil => rw [List.nil_append]
  | cons x a' ih =>
    have hx : p0 ≠ x := fun h => ha (h ▸ List.mem_cons_self x a')
    have hp : (p0 :: pt).isPrefixOf (x :: (a' ++ b)) = false := by
      simp [List.isPrefixOf, beq_eq_false_iff_ne, hx]
    show countSub (p0 :: pt) (x :: (a' ++ b)) = _
    simp only [countSub, hp, Bool.false_eq_true, if_false]
    rw [ih (fun h => ha (List.mem_cons_of_mem x h))]
    omega

theorem findSub_none_iff_countSub {pat s : Str} :
    findSub pat s = none ↔ countSub pat s = 0 := by
  induction s with
  | nil => cases h : pat.isPrefixOf ([] : Str) <;> simp [findSub, countSub, h]
  | cons c rest ih =>
    cases h : pat.isPrefixOf (c :: rest) <;>
      simp [findSub, countSub, h, Option.map_eq_none', ih]

theorem containsSub_false_iff {pat s : Str} :
    containsSub pat s = false ↔ findSub pat s = none := by
  cases h : findSub pat s <;> simp [containsSub, h]

theorem dropWhile_eq_self_of_headc {l : Str}
    (h : ∀ c, l.head? = some c → wsChar c = false) : l.dropWhile wsChar = l := by
  cases l with
  | nil => rfl
  | cons a as => rw [List.dropWhile_cons_of_neg]; simp [h a rfl]


theorem trimL_eq_self {v : Str} (h : IsTrimmed v) : trimL v = v := by
  unfold trimL
  rw [h.1, h.2, List.reverse_reverse]

theorem trimL_ws_cons {v : Str} {c : Char} (hc : wsChar c = true) :
    trimL (c :: v) = trimL v := by
  unfold trimL
  rw [List.dropWhile_cons_of_pos hc]

theorem trim_wrap {J : Str} {c1 c2 : Char} (h1 : wsChar c1 = true)
    (h2 : wsChar c2 = true) (hJ : J ≠ [])
    (hh : ∀ h, J.head? = some h → wsChar h = false)
    (hl : ∀ h, J.getLast? = some h → wsChar h = false) :
    trimL (c1 :: (J ++ [c2])) = J := by
  rw [trimL_ws_cons h1]
  unfold trimL
  have hJd : (J ++ [c2]).dropWhile wsChar = J ++ [c2] := by
    apply dropWhile_eq_self_of_headc
    intro c hcc
    cases J with
    | nil => exact absurd rfl hJ
    | cons j J' =>
      rw [List.cons_append] at hcc
      simp only [List.head?_cons, Option.some.injEq] at hcc
      exact hcc ▸ hh j rfl
  rw [hJd, List.reverse_append, List.reverse_singleton, List.singleton_append,
    List.dropWhile_cons_of_pos h2]
  have : J.reverse.dropWhile wsChar = J.reverse := by
    apply dropWhile_eq_self_of_headc
    intro c hcc
    rw [List.head?_reverse] at hcc
    exact hl c hcc
  rw [this, List.reverse_reverse]

theorem splitNl_ne_nil (s : Str) : splitNl s ≠ [] := by
  induction s with
  | nil => simp [splitNl]
  | cons c rest ih =>
    simp only [splitNl]
    rcases h : splitNl rest with _ | ⟨hd, tl⟩
    · exact absurd h ih
    · by_cases hc : c = '\n' <;> simp [hc]

theorem splitNl_no_nl {a : Str} (h : '\n' ∉ a) : splitNl a = [a] := by
  induction a with
  | nil => rfl
  | cons c a' ih =>
    have hc : c ≠ '\n' := fun hx => h (hx ▸ List.mem_cons_self c a')
    have ha' : '\n' ∉ a' := fun hx => h (List.mem_cons_of_mem c hx)
    simp only [splitNl, ih ha', hc]
    simp [hc]

theorem splitNl_append {a b : Str} (h : '\n' ∉ a) :
    splitNl (a ++ '\n' :: b) = a :: splitNl b := by
  induction a with
  | nil =>
    rw [List.nil_append]
    simp only [splitNl]
    rcases hb : splitNl b with _ | ⟨hd, tl⟩
    · exact absurd hb (splitNl_ne_nil b)
    · simp
  | cons c a' ih =>
    have hc : c ≠ '\n' := fun hx => h (hx ▸ List.mem_cons_self c a')
    have ha' : '\n' ∉ a' := fun hx => h (List.mem_cons_of_mem c hx)
    show splitNl (c :: (a' ++ '\n' :: b)) = _
    simp only [splitNl, ih ha']
    simp [hc]

theorem drop_append_left (a b : Str) (k : Nat) :
    (a ++ b).drop (a.length + k) = b.drop k := by
  rw [List.drop_append_eq_append_drop, List.drop_eq_nil_of_le (by omega),
    List.nil_append, Nat.add_sub_cancel_left]

theorem take_append_left (a b : Str) (k : Nat) :
    (a ++ b).take (a.length + k) = a ++ b.take k := by
  rw [List.take_append_eq_append_take, List.take_of_length_le (by omega),
    Nat.add_sub_cancel_left]

theorem headc_not_ws_of_dropWhile_eq {l : Str} (h : l.dropWhile wsChar = l) :
    ∀ ch, l.head? = some ch → wsChar ch = false := by
  cases l with
  | nil => intro ch hch; cases hch
  | cons a as =>
    intro ch hch
    simp only [List.head?_cons, Option.some.injEq] at hch
    subst hch
    by_contra hws
    rw [List.dropWhile_cons_of_pos (by simpa using hws)] at h
    have := (List.dropWhile_sublist (l := as) (p := wsChar)).length_le
    rw [h] at this
    simp at this

theorem getLast?_cons_of_ne_nil {c : Char} {X : Str} (h : X ≠ []) :
    (c :: X).getLast? = X.getLast? := by
  cases X with
  | nil => exact absurd rfl h
  | cons x xs => exact List.getLast?_cons_cons

theorem joinNl_ne_nil {l : Str} (hl : l ≠ []) (rest : List Str) :
    joinNl (l :: rest) ≠ [] := by
  cases rest with
  | nil => simpa [joinNl] using hl
  | cons l₂ ls => simp [joinNl, hl]

theorem joinNl_headc {l : Str} (hl : l ≠ []) (rest : List Str) :
    (joinNl (l :: rest)).head? = l.head? := by
  cases rest with
  | nil => rfl
  | cons l₂ ls =>
    cases l with
    | nil => exact absurd rfl hl
    | cons x l' => rfl

theorem joinNl_getLast_ws (lines : List Str)
    (hne : ∀ l ∈ lines, l ≠ [])
    (h : ∀ l ∈ lines, ∀ ch, l.getLast? = some ch → wsChar ch = false) :
    ∀ ch, (joinNl lines).getLast? = some ch → wsChar ch = false := by
  induction lines with
  | nil => intro ch hch; cases hch
  | cons l rest ih =>
    cases rest with
    | nil =>
      intro ch hch
      exact h l (List.mem_cons_self l []) ch hch
    | cons l₂ ls =>
      intro ch hch
      rw [show joinNl (l :: l₂ :: ls) = l ++ '\n' :: joinNl (l₂ :: ls) from rfl,
        List.getLast?_append_of_ne_nil l (by simp),
        getLast?_cons_of_ne_nil (joinNl_ne_nil (hne l₂ (by simp)) ls)] at hch
      exact ih (fun x hx => hne x (List.mem_cons_of_mem l hx))
        (fun x hx => h x (List.mem_cons_of_mem l hx)) ch hch

theorem splitNl_joinNl (lines : List Str) (hne : lines ≠ [])
    (h : ∀ l ∈ lines, '\n' ∉ l) :
    splitNl (joinNl lines) = lines := by
  induction lines with
  | nil => exact absurd rfl hne
  | cons l rest ih =>
    cases rest with
    | nil => exact splitNl_no_nl (h l (List.mem_cons_self l []))
    | cons l₂ ls =>
      rw [show joinNl (l :: l₂ :: ls) = l ++ '\n' :: joinNl (l₂ :: ls) from rfl,
        splitNl_append (h l (List.mem_cons_self l _)),
        ih (by simp) (fun x hx => h x (List.mem_cons_of_mem l hx))]

theorem countSub_join_zero {pat : Str} (hne : pat ≠ []) (hnl : '\n' ∉ pat)
    (lines : List Str) (h : ∀ l ∈ lines, countSub pat l = 0) :
    countSub pat (joinNl lines) = 0 := by
  induction lines with
  | nil => exact countSub_nil_of_ne hne
  | cons l rest ih =>
    cases rest with
    | nil => exact h l (List.mem_cons_self l [])
    | cons l₂ ls =>
      rw [show joinNl (l :: l₂ :: ls) = l ++ '\n' :: joinNl (l₂ :: ls) from rfl,
        countSub_append_cons hne hnl,
        h l (List.mem_cons_self l _),
        ih (fun x hx => h x (List.mem_cons_of_mem l hx))]


/-! ### Facts about marker-shaped strings -/

/-- Normal form of a formatted marker. -/
theorem marker_shape (J : Str) :
    Meta.START ++ str "\n" ++ J ++ str "\n" ++ Meta.ENDT =
      Meta.START ++ '\n' :: (J ++ '\n' :: Meta.ENDT) := by
  simp [str]

theorem findSub_endt_join (lines : List Str)
    (h : ∀ l ∈ lines, findSub Meta.ENDT l = none) :
    findSub Meta.ENDT (joinNl lines ++ '\n' :: Meta.ENDT) =
      some ((joinNl lines).length + 1) := by
  induction lines with
  | nil =>
    show findSub Meta.ENDT ([] ++ '\n' :: Meta.ENDT) = some ((0 : Nat) + 1)
    rw [List.nil_append]
    decide
  | cons l rest ih =>
    cases rest with
    | nil =>
      show findSub Meta.ENDT (l ++ '\n' :: Meta.ENDT) = some (l.length + 1)
      rw [findSub_append_cons (by decide) (by decide),
        h l (List.mem_cons_self l []), Option.none_or,
        show findSub Meta.ENDT Meta.ENDT = some 0 from by decide]
      simp [Nat.add_comm]
    | cons l₂ ls =>
      rw [show joinNl (l :: l₂ :: ls) = l ++ '\n' :: joinNl (l₂ :: ls) from rfl,
        List.append_assoc, List.cons_append,
        findSub_append_cons (by decide) (by decide),
        h l (List.mem_cons_self l _), Option.none_or,
        ih (fun x hx => h x (List.mem_cons_of_mem l hx))]
      simp only [Option.map_some', Option.some.injEq, List.length_append,
        List.length_cons]
      omega

theorem countSub_start_marker (lines : List Str)
    (h : ∀ l ∈ lines, countSub Meta.START l = 0) :
    countSub Meta.START
      (Meta.START ++ '\n' :: (joinNl lines ++ '\n' :: Meta.ENDT)) = 1 := by
  rw [countSub_append_cons (by decide) (by decide),
    show countSub Meta.START Meta.START = 1 from by decide,
    countSub_append_cons (by decide) (by decide),
    countSub_join_zero (by decide) (by decide) lines h,
    show countSub Meta.START Meta.ENDT = 0 from by decide]

theorem findSub_endt_label {label v : Str} (hl : '-' ∉ label)
    (hv : findSub Meta.ENDT v = none) :
    findSub Meta.ENDT (label ++ v) = none := by
  have h := @findSub_append_headc '-' (str "->") label v hl
  rw [(by decide : ('-' :: str "->") = Meta.ENDT)] at h
  rw [h, hv]
  rfl

theorem countSub_start_label {label v : Str} (hl : '<' ∉ label)
    (hv : countSub Meta.START v = 0) :
    countSub Meta.START (label ++ v) = 0 := by
  have h := @countSub_append_headc '<' (str "!-- letta-metadata") label v hl
  rw [(by decide : ('<' :: str "!-- letta-metadata") = Meta.START)] at h
  rw [h, hv]

theorem findSub_colon_label {lab : Str} (h : ':' ∉ lab) (rest : Str) :
    findSub (str ":") (lab ++ ':' :: rest) = some lab.length := by
  have hh := @findSub_append_headc ':' [] lab (':' :: rest) h
  rw [(by decide : (':' :: ([] : Str)) = str ":")] at hh
  rw [hh, findSub_of_isPrefixOf (by simp [str, List.isPrefixOf])]
  simp

theorem parseMetaLine_agent (acc : Meta.MetaAcc) {v : Str} (hv : IsTrimmed v) :
    Meta.parseMetaLine acc (str "agent_id: " ++ v) =
      { acc with agentId := some v } := by
  rw [show str "agent_id: " ++ v = str "agent_id" ++ ':' :: (' ' :: v) from rfl]
  unfold Meta.parseMetaLine
  rw [findSub_colon_label (by decide)]
  dsimp only
  rw [List.take_left, drop_append_left (str "agent_id") (':' :: ' ' :: v) 1]
  simp only [List.drop_succ_cons, List.drop_zero]
  rw [trimL_ws_cons (by decide), trimL_eq_self hv,
    (by decide : trimL (str "agent_id") = str "agent_id")]
  simp

theorem parseMetaLine_conv (acc : Meta.MetaAcc) {v : Str} (hv : IsTrimmed v) :
    Meta.parseMetaLine acc (str "conversation_id: " ++ v) =
      { acc with conversationId := some v } := by
  rw [show str "conversation_id: " ++ v =
        str "conversation_id" ++ ':' :: (' ' :: v) from rfl]
  unfold Meta.parseMetaLine
  rw [findSub_colon_label (by decide)]
  dsimp only
  rw [List.take_left, drop_append_left (str "conversation_id") (':' :: ' ' :: v) 1]
  simp only [List.drop_succ_cons, List.drop_zero]
  rw [trimL_ws_cons (by decide), trimL_eq_self hv,
    (by decide : trimL (str "conversation_id") = str "conversation_id")]
  rw [if_neg (by decide), if_pos rfl]

theorem parseMetaLine_model (acc : Meta.MetaAcc) {v : Str} (hv : IsTrimmed v) :
    Meta.parseMetaLine acc (str "model: " ++ v) =
      { acc with model := some v } := by
  rw [show str "model: " ++ v = str "model" ++ ':' :: (' ' :: v) from rfl]
  unfold Meta.parseMetaLine
  rw [findSub_colon_label (by decide)]
  dsimp only
  rw [List.take_left, drop_append_left (str "model") (':' :: ' ' :: v) 1]
  simp only [List.drop_succ_cons, List.drop_zero]
  rw [trimL_ws_cons (by decide), trimL_eq_self hv,
    (by decide : trimL (str "model") = str "model")]
  rw [if_neg (by decide), if_neg (by decide), if_pos rfl]

theorem parseMetaLine_created (acc : Meta.MetaAcc) {v : Str} (hv : IsTrimmed v) :
    Meta.parseMetaLine acc (str "created: " ++ v) =
      { acc with created := some v } := by
  rw [show str "created: " ++ v = str "created" ++ ':' :: (' ' :: v) from rfl]
  unfold Meta.parseMetaLine
  rw [findSub_colon_label (by decide)]
  dsimp only
  rw [List.take_left, drop_append_left (str "created") (':' :: ' ' :: v) 1]
  simp only [List.drop_succ_cons, List.drop_zero]
  rw [trimL_ws_cons (by decide), trimL_eq_self hv,
    (by decide : trimL (str "created") = str "created")]
  rw [if_neg (by decide), if_neg (by decide), if_neg (by decide), if_pos rfl]

theorem not_pfx_of_headc {pat : Str} {c : Char} {l : Str}
    (hne : pat ≠ []) (hc : pat.head? ≠ some c) : ¬ pat <+: (c :: l) := by
  intro hx
  cases pat with
  | nil => exact hne rfl
  | cons p pt =>
    rcases hx with ⟨t, ht⟩
    rw [List.cons_append] at ht
    injection ht with h1 _
    exact hc (by rw [List.head?_cons, h1])

theorem findSub_cons_shift {pat : Str} {c : Char} {l : Str}
    (h : ¬ pat <+: (c :: l)) :
    findSub pat (c :: l) = (findSub pat l).map (· + 1) := by
  simp [findSub, isPrefixOf_eq_false_of_not_pfx h]

/-- First occurrence of the start token in a marker appended to a
marker-free body. -/
theorem findSub_start_append (body : Str) (hb : findSub Meta.START body = none)
    (tail : Str) :
    findSub Meta.START (body ++ '\n' :: '\n' :: (Meta.START ++ tail)) =
      some (body.length + 2) := by
  rw [findSub_append_cons (by decide) (by decide), hb, Option.none_or,
    findSub_cons_shift (not_pfx_of_headc (by decide) (by decide)),
    findSub_of_isPrefixOf
      (List.isPrefixOf_iff_prefix.mpr (List.prefix_append _ _))]
  simp only [Option.map_some', Option.some.injEq]
  omega

/-- Parsing a freshly formatted marker reduces to folding the parse loop
over the written lines. -/
theorem parse_of_lines (lines : List Str) (hne : lines ≠ [])
    (hprop : ∀ l ∈ lines, l ≠ [] ∧ ('\n' ∉ l) ∧ findSub Meta.ENDT l = none ∧
      (∀ ch, l.head? = some ch → wsChar ch = false) ∧
      (∀ ch, l.getLast? = some ch → wsChar ch = false)) :
    Meta.parseMetadata
        (Meta.START ++ '\n' :: (joinNl lines ++ '\n' :: Meta.ENDT)) =
      (match (lines.foldl Meta.parseMetaLine {}).agentId with
       | none => none
       | some a =>
         if a.isEmpty then none
         else some { agentId := a,
                     conversationId :=
                       (lines.foldl Meta.parseMetaLine {}).conversationId,
                     model := (lines.foldl Meta.parseMetaLine {}).model,
                     created := (lines.foldl Meta.parseMetaLine {}).created }) := by
  have hJhead : ∀ ch, (joinNl lines).head? = some ch → wsChar ch = false := by
    cases lines with
    | nil => exact absurd rfl hne
    | cons l rest =>
      have h0 := hprop l (List.mem_cons_self l rest)
      rw [joinNl_headc h0.1]
      exact h0.2.2.2.1
  have hJlast := joinNl_getLast_ws lines (fun l hl => (hprop l hl).1)
    (fun l hl => (hprop l hl).2.2.2.2)
  have hJne : joinNl lines ≠ [] := by
    cases lines with
    | nil => exact absurd rfl hne
    | cons l rest =>
      exact joinNl_ne_nil (hprop l (List.mem_cons_self l rest)).1 rest
  have h1 : findSub Meta.START
      (Meta.START ++ '\n' :: (joinNl lines ++ '\n' :: Meta.ENDT)) = some 0 :=
    findSub_of_isPrefixOf
      (List.isPrefixOf_iff_prefix.mpr (List.prefix_append _ _))
  have h2 : findSub Meta.ENDT
      ((Meta.START ++ '\n' :: (joinNl lines ++ '\n' :: Meta.ENDT)).drop 0) =
      some (((joinNl lines).length + 1) + (Meta.START.length + 1)) := by
    rw [List.drop_zero, findSub_append_cons (by decide) (by decide),
      (by decide : findSub Meta.ENDT Meta.START = none), Option.none_or,
      findSub_endt_join lines (fun l hl => (hprop l hl).2.2.1)]
    rfl
  have htake :
      (Meta.START ++ '\n' :: (joinNl lines ++ '\n' :: Meta.ENDT)).take
        (((joinNl lines).length + 1) + (Meta.START.length + 1) + 0) =
      Meta.START ++ '\n' :: (joinNl lines ++ ['\n']) := by
    rw [show ((joinNl lines).length + 1) + (Meta.START.length + 1) + 0 =
      Meta.START.length + ((joinNl lines).length + 2) from by omega]
    rw [take_append_left]
    congr 1
    rw [show (joinNl lines).length + 2 = ((joinNl lines).length + 1) + 1 from rfl,
      List.take_succ_cons]
    congr 1
    rw [take_append_left (joinNl lines) ('\n' :: Meta.ENDT) 1]
    rfl
  have hdrop :
      (Meta.START ++ '\n' :: (joinNl lines ++ ['\n'])).drop
        (0 + Meta.START.length) = '\n' :: (joinNl lines ++ ['\n']) := by
    rw [Nat.zero_add, List.drop_left]
  unfold Meta.parseMetadata
  rw [h1]
  dsimp only
  rw [h2]
  dsimp only [Option.map_some']
  rw [htake, hdrop,
    trim_wrap (by decide) (by decide) hJne hJhead hJlast,
    splitNl_joinNl lines hne (fun l hl => (hprop l hl).2.1)]


theorem strTruthy_some {v : Str} (h : v ≠ []) : strTruthy (some v) = true := by
  simp [strTruthy, List.isEmpty_iff, h]

/-- The five line properties needed by `parse_of_lines`, for a
`label ++ value` line. -/
theorem line_props {label v : Str} (h1 : label ≠ []) (h2 : '\n' ∉ label)
    (h3 : '-' ∉ label) (h4 : ∀ ch, label.head? = some ch → wsChar ch = false)
    (hv : WFfield v) :
    (label ++ v) ≠ [] ∧ ('\n' ∉ label ++ v) ∧
      findSub Meta.ENDT (label ++ v) = none ∧
      (∀ ch, (label ++ v).head? = some ch → wsChar ch = false) ∧
      (∀ ch, (label ++ v).getLast? = some ch → wsChar ch = false) := by
  obtain ⟨hv1, hv2, hv3, hv4⟩ := hv
  refine ⟨?_, ?_, ?_, ?_, ?_⟩
  · simp [h1]
  · intro hmem
    rcases List.mem_append.mp hmem with h | h
    · exact h2 h
    · exact hv3 h
  · exact findSub_endt_label h3 hv4
  · intro ch hch
    cases label with
    | nil => exact absurd rfl h1
    | cons x xs =>
      rw [List.cons_append, List.head?_cons] at hch
      exact h4 ch (by rw [List.head?_cons]; exact hch)
  · intro ch hch
    rw [List.getLast?_append_of_ne_nil label hv1] at hch
    have hrev := headc_not_ws_of_dropWhile_eq hv2.2
    exact hrev ch (by rw [List.head?_reverse]; exact hch)

theorem strTruthy_none : strTruthy none = false := rfl

theorem isEmpty_false_of_ne_nil {v : Str} (h : v ≠ []) : v.isEmpty = false := by
  simp [List.isEmpty_iff, h]

/-- Round-trip of the metadata codec on well-formed records whose
`created` field is present. -/
theorem meta_roundtrip (m : Meta.LettaMetadata) (now : Str)
    (hA : WFfield m.agentId) (hC : WFopt m.conversationId) (hM : WFopt m.model)
    (hT : WFopt m.created) (hTne : m.created ≠ none) :
    Meta.parseMetadata (Meta.formatMetadata m now) = some m := by
  obtain ⟨a, co, mo, cr⟩ := m
  cases cr with
  | none => exact absurd rfl hTne
  | some t =>
  have hTw : WFfield t := hT t rfl
  have hlineA := @line_props (str "agent_id: ") a
    (by decide) (by decide) (by decide) (by decide) hA
  have hlineT := @line_props (str "created: ") t
    (by decide) (by decide) (by decide) (by decide) hTw
  cases co with
  | none =>
    cases mo with
    | none =>
      have hfmt : Meta.formatMetadata ⟨a, none, none, some t⟩ now =
          Meta.START ++ '\n' ::
            (joinNl [str "agent_id: " ++ a, str "created: " ++ t] ++
              '\n' :: Meta.ENDT) := by
        simp only [Meta.formatMetadata, strTruthy_none, strTruthy_some hTw.1,
          if_true, if_false, Bool.false_eq_true, Option.getD_some,
          List.nil_append, List.append_nil, List.cons_append,
          List.singleton_append]
        exact marker_shape _
      rw [hfmt, parse_of_lines _ (by simp) ?hp]
      case hp =>
        intro l hl
        rcases List.mem_cons.mp hl with rfl | hl
        · exact hlineA
        rcases List.mem_cons.mp hl with rfl | hl
        · exact hlineT
        cases hl
      simp only [List.foldl, parseMetaLine_agent _ hA.2.1,
        parseMetaLine_created _ hTw.2.1]
      rw [if_neg (by simp [isEmpty_false_of_ne_nil hA.1])]
    | some mv =>
      have hMw : WFfield mv := hM mv rfl
      have hlineM := @line_props (str "model: ") mv
        (by decide) (by decide) (by decide) (by decide) hMw
      have hfmt : Meta.formatMetadata ⟨a, none, some mv, some t⟩ now =
          Meta.START ++ '\n' ::
            (joinNl [str "agent_id: " ++ a, str "model: " ++ mv,
                str "created: " ++ t] ++ '\n' :: Meta.ENDT) := by
        simp only [Meta.formatMetadata, strTruthy_none, strTruthy_some hTw.1,
          strTruthy_some hMw.1, if_true, if_false, Bool.false_eq_true,
          Option.getD_some, List.nil_append, List.append_nil,
          List.cons_append, List.singleton_append]
        exact marker_shape _
      rw [hfmt, parse_of_lines _ (by simp) ?hpm]
      case hpm =>
        intro l hl
        rcases List.mem_cons.mp hl with rfl | hl
        · exact hlineA
        rcases List.mem_cons.mp hl with rfl | hl
        · exact hlineM
        rcases List.mem_cons.mp hl with rfl | hl
        · exact hlineT
        cases hl
      simp only [List.foldl, parseMetaLine_agent _ hA.2.1,
        parseMetaLine_model _ hMw.2.1, parseMetaLine_created _ hTw.2.1]
      rw [if_neg (by simp [isEmpty_false_of_ne_nil hA.1])]
  | some cv =>
    have hCw : WFfield cv := hC cv rfl
    have hlineC := @line_props (str "conversation_id: ") cv
      (by decide) (by decide) (by decide) (by decide) hCw
    cases mo with
    | none =>
      have hfmt : Meta.formatMetadata ⟨a, some cv, none, some t⟩ now =
          Meta.START ++ '\n' ::
            (joinNl [str "agent_id: " ++ a, str "conversation_id: " ++ cv,
                str "created: " ++ t] ++ '\n' :: Meta.ENDT) := by
        simp only [Meta.formatMetadata, strTruthy_none, strTruthy_some hTw.1,
          strTruthy_some hCw.1, if_true, if_false, Bool.false_eq_true,
          Option.getD_some, List.nil_append, List.append_nil,
          List.cons_append, List.singleton_append]
        exact marker_shape _
      rw [hfmt, parse_of_lines _ (by simp) ?hpc]
      case hpc =>
        intro l hl
        rcases List.mem_cons.mp hl with rfl | hl
        · exact hlineA
        rcases List.mem_cons.mp hl with rfl | hl
        · exact hlineC
        rcases List.mem_cons.mp hl with rfl | hl
        · exact hlineT
        cases hl
      simp only [List.foldl, parseMetaLine_agent _ hA.2.1,
        parseMetaLine_conv _ hCw.2.1, parseMetaLine_created _ hTw.2.1]
      rw [if_neg (by simp [isEmpty_false_of_ne_nil hA.1])]
    | some mv =>
      have hMw : WFfield mv := hM mv rfl
      have hlineM := @line_props (str "model: ") mv
        (by decide) (by decide) (by decide) (by decide) hMw
      have hfmt : Meta.formatMetadata ⟨a, some cv, some mv, some t⟩ now =
          Meta.START ++ '\n' ::
            (joinNl [str "agent_id: " ++ a, str "conversation_id: " ++ cv,
                str "model: " ++ mv, str "created: " ++ t] ++
              '\n' :: Meta.ENDT) := by
        simp only [Meta.formatMetadata, strTruthy_none, strTruthy_some hTw.1,
          strTruthy_some hCw.1, strTruthy_some hMw.1, if_true, if_false,
          Bool.false_eq_true, Option.getD_some, List.nil_append,
          List.append_nil, List.cons_append, List.singleton_append]
        exact marker_shape _
      rw [hfmt, parse_of_lines _ (by simp) ?hpcm]
      case hpcm =>
        intro l hl
        rcases List.mem_cons.mp hl with rfl | hl
        · exact hlineA
        rcases List.mem_cons.mp hl with rfl | hl
        · exact hlineC
        rcases List.mem_cons.mp hl with rfl | hl
        · exact hlineM
        rcases List.mem_cons.mp hl with rfl | hl
        · exact hlineT
        cases hl
      simp only [List.foldl, parseMetaLine_agent _ hA.2.1,
        parseMetaLine_conv _ hCw.2.1, parseMetaLine_model _ hMw.2.1,
        parseMetaLine_created _ hTw.2.1]
      rw [if_neg (by simp [isEmpty_false_of_ne_nil hA.1])]


theorem ci_format_shape (m : CI.LettaMetadata) (now : Str) :
    CI.formatMetadata m now =
      Meta.START ++ '\n' :: (joinNl (ciLines m now) ++ '\n' :: Meta.ENDT) := by
  unfold CI.formatMetadata ciLines
  exact marker_shape _

theorem ciLines_clean (m : CI.LettaMetadata) (now : Str)
    (hm : CleanRec m) (hnow : CleanS now) :
    ∀ l ∈ ciLines m now,
      findSub Meta.ENDT l = none ∧ countSub Meta.START l = 0 := by
  intro l hl
  unfold ciLines at hl
  have clean_line : ∀ label v : Str, '-' ∉ label → '<' ∉ label → CleanS v →
      findSub Meta.ENDT (label ++ v) = none ∧
        countSub Meta.START (label ++ v) = 0 := by
    intro label v hd hlt hv
    exact ⟨findSub_endt_label hd hv.1,
      countSub_start_label hlt (findSub_none_iff_countSub.mp hv.2)⟩
  rcases List.mem_append.mp hl with hl1 | hl2
  · rcases List.mem_append.mp hl1 with hA | hMo
    · rw [List.mem_singleton.mp hA]
      exact clean_line _ _ (by decide) (by decide) hm.1
    · cases hmv : strTruthy m.model with
      | false => rw [hmv] at hMo; cases hMo
      | true =>
        rw [hmv, if_pos rfl] at hMo
        cases hmo : m.model with
        | none => rw [hmo] at hmv; cases hmv
        | some v =>
          rw [List.mem_singleton.mp hMo, hmo]
          exact clean_line _ _ (by decide) (by decide) (hm.2.1 v hmo)
  · rw [List.mem_singleton.mp hl2]
    cases hcr : m.created with
    | none =>
      rw [if_neg (by simp [strTruthy_none])]
      exact clean_line _ _ (by decide) (by decide) hnow
    | some v =>
      have hv := hm.2.2 v hcr
      cases htv : strTruthy (some v : Option Str) with
      | false =>
        rw [if_neg (by simp [htv])]
        exact clean_line _ _ (by decide) (by decide) hnow
      | true =>
        rw [if_pos (by simp [htv])]
        exact clean_line _ _ (by decide) (by decide) (by simpa using hv)

theorem findSub_endt_marker (lines : List Str)
    (h : ∀ l ∈ lines, findSub Meta.ENDT l = none) :
    findSub Meta.ENDT
        (Meta.START ++ '\n' :: (joinNl lines ++ '\n' :: Meta.ENDT)) =
      some (((joinNl lines).length + 1) + (Meta.START.length + 1)) := by
  rw [findSub_append_cons (by decide) (by decide),
    (by decide : findSub Meta.ENDT Meta.START = none), Option.none_or,
    findSub_endt_join lines h]
  rfl

theorem ci_upsert_fresh (body : Str) (m : CI.LettaMetadata) (now : Str)
    (hb : CI.hasMetadata body = false) :
    CI.updateMetadataInBody body m now =
      body ++ '\n' :: '\n' :: CI.formatMetadata m now := by
  unfold CI.updateMetadataInBody
  rw [if_neg (by simp [hb])]
  simp [str]

theorem countSub_cons_shift {pat : Str} {c : Char} {l : Str}
    (h : ¬ pat <+: (c :: l)) :
    countSub pat (c :: l) = countSub pat l := by
  simp [countSub, isPrefixOf_eq_false_of_not_pfx h]

/-- Core properties of a fresh upsert: idempotence under a second upsert
with the same record, a unique start token at position `body.length + 2`,
and an end token after it. -/
theorem ci_upsert_props (body : Str) (m : CI.LettaMetadata) (now : Str)
    (hb : CI.hasMetadata body = false) (hm : CleanRec m) (hnow : CleanS now) :
    CI.updateMetadataInBody (CI.updateMetadataInBody body m now) m now =
        CI.updateMetadataInBody body m now ∧
      countSub Meta.START (CI.updateMetadataInBody body m now) = 1 ∧
      findSub Meta.START (CI.updateMetadataInBody body m now) =
        some (body.length + 2) ∧
      containsSub Meta.ENDT
        ((CI.updateMetadataInBody body m now).drop (body.length + 2)) = true := by
  have hbnone : findSub Meta.START body = none := containsSub_false_iff.mp hb
  have hclean := ciLines_clean m now hm hnow
  have hshape := ci_format_shape m now
  have hufresh := ci_upsert_fresh body m now hb
  set J := joinNl (ciLines m now) with hJ
  set F := CI.formatMetadata m now with hF
  have hfind : findSub Meta.START (body ++ '\n' :: '\n' :: F) =
      some (body.length + 2) := by
    rw [hshape]
    exact findSub_start_append body hbnone _
  have hendtF : findSub Meta.ENDT F =
      some ((J.length + 1) + (Meta.START.length + 1)) := by
    rw [hshape]
    exact findSub_endt_marker _ (fun l hl => (hclean l hl).1)
  have hdropu : (body ++ '\n' :: '\n' :: F).drop (body.length + 2) = F := by
    rw [show body ++ '\n' :: '\n' :: F = (body ++ ['\n', '\n']) ++ F by simp,
      show body.length + 2 = (body ++ ['\n', '\n']).length by simp]
    exact List.drop_left _ _
  have htakeu : (body ++ '\n' :: '\n' :: F).take (body.length + 2) =
      body ++ ['\n', '\n'] := by
    rw [show body ++ '\n' :: '\n' :: F = (body ++ ['\n', '\n']) ++ F by simp,
      show body.length + 2 = (body ++ ['\n', '\n']).length by simp]
    exact List.take_left _ _
  have hlenF : F.length =
      Meta.START.length + 1 + (J.length + 1) + Meta.ENDT.length := by
    rw [hshape]
    simp
    omega
  refine ⟨?_, ?_, ?_, ?_⟩
  · rw [hufresh]
    unfold CI.updateMetadataInBody
    rw [if_pos (by simp [CI.hasMetadata, containsSub, hfind]),
      hfind]
    simp only [Option.getD_some]
    rw [hdropu, hendtF]
    simp only [Option.map_some']
    rw [htakeu,
      List.drop_eq_nil_of_le (by
        have hS : Meta.START.length = 19 := by decide
        have hE : Meta.ENDT.length = 3 := by decide
        simp only [List.length_append, List.length_cons, hlenF, hS, hE]
        show List.length body + (19 + 1 + (List.length J + 1) + 3 + 1 + 1) ≤
          List.length J + 1 + (19 + 1) + (List.length body + 2) + 3
        omega)]
    rw [← hF]
    simp
  · rw [hufresh,
      show body ++ '\n' :: '\n' :: F = body ++ '\n' :: ('\n' :: F) from rfl,
      countSub_append_cons (by decide) (by decide),
      findSub_none_iff_countSub.mp hbnone,
      countSub_cons_shift (not_pfx_of_headc (by decide) (by decide))]
    rw [hshape, countSub_start_marker _ (fun l hl => (hclean l hl).2)]
  · rw [hufresh]
    exact hfind
  · rw [hufresh, hdropu]
    simp [containsSub, hendtF]

/-! ### Issue-reference scanning on texts with no reference -/

theorem hasHashNum_tail {c : Char} {rest : Str}
    (h : hasHashNum (c :: rest) = false) : hasHashNum rest = false := by
  cases rest with
  | nil => rfl
  | cons b r =>
    simp only [hasHashNum, Bool.or_eq_false_iff] at h
    exact h.2

theorem hasHashNum_dropWhile {p : Char → Bool} {s : Str}
    (h : hasHashNum s = false) : hasHashNum (s.dropWhile p) = false := by
  induction s with
  | nil => exact h
  | cons c rest ih =>
    by_cases hp : p c = true
    · rw [List.dropWhile_cons_of_pos hp]
      exact ih (hasHashNum_tail h)
    · rw [List.dropWhile_cons_of_neg hp]
      exact h

theorem hasHashNum_drop {s : Str} (n : Nat)
    (h : hasHashNum s = false) : hasHashNum (s.drop n) = false := by
  induction n generalizing s with
  | zero => exact h
  | succ k ih =>
    cases s with
    | nil => exact h
    | cons c rest =>
      rw [List.drop_succ_cons]
      exact ih (hasHashNum_tail h)

theorem hasHashNum_tail_list {s : Str}
    (h : hasHashNum s = false) : hasHashNum s.tail = false := by
  cases s with
  | nil => exact h
  | cons c rest => exact hasHashNum_tail h

theorem head_not_digit_of_hash {rest : Str}
    (h : hasHashNum ('#' :: rest) = false) :
    rest.takeWhile Char.isDigit = [] := by
  cases rest with
  | nil => rfl
  | cons b r =>
    simp only [hasHashNum, Bool.or_eq_false_iff, Bool.and_eq_false_iff] at h
    rcases h.1 with hb | hb
    · simp at hb
    · rw [List.takeWhile_cons_of_neg (by simp [hb])]

theorem head?_ne_hash {s : Str} (hh : hasHashNum s = false)
    (hs : s.head? = some '#') : s.tail.takeWhile Char.isDigit = [] := by
  cases s with
  | nil => cases hs
  | cons c rest =>
    simp only [List.head?_cons, Option.some.injEq] at hs
    subst hs
    exact head_not_digit_of_hash hh

theorem matchClosingTail_none {t : Str} (h : hasHashNum t = false) :
    FEA.matchClosingTail t = none := by
  unfold FEA.matchClosingTail
  have hs1 : hasHashNum (if t.head? = some ':' then t.tail else t) = false := by
    by_cases hc : t.head? = some ':'
    · rw [if_pos hc]; exact hasHashNum_tail_list h
    · rw [if_neg hc]; exact h
  have hs2 :
      hasHashNum ((if t.head? = some ':' then t.tail else t).dropWhile wsChar)
        = false := hasHashNum_dropWhile hs1
  by_cases hh :
      ((if t.head? = some ':' then t.tail else t).dropWhile wsChar).head? =
        some '#'
  · rw [if_pos hh]
    dsimp only
    rw [head?_ne_hash hs2 hh]
    rfl
  · rw [if_neg hh]

theorem tryKeywords_none {s : Str} (h : hasHashNum s = false) :
    ∀ ks : List Str, FEA.tryKeywords ks s = none := by
  intro ks
  induction ks with
  | nil => rfl
  | cons k ks ih =>
    unfold FEA.tryKeywords
    rw [matchClosingTail_none (hasHashNum_drop _ h)]
    by_cases hk : lowerL (s.take k.length) = k
    · rw [if_pos hk]; exact ih
    · rw [if_neg hk]; exact ih

theorem closingScan_none (fuel : Nat) : ∀ (w : Bool) (s : Str),
    hasHashNum s = false → FEA.closingScan fuel w s = [] := by
  induction fuel with
  | zero => intro w s h; rfl
  | succ k ih =>
    intro w s h
    cases s with
    | nil => rfl
    | cons c rest =>
      unfold FEA.closingScan
      have ht : FEA.tryKeywords FEA.closingKeywords (c :: rest) = none :=
        tryKeywords_none h _
      cases w
      · rw [if_neg (by simp)]
        rw [ht]
        exact ih _ _ (hasHashNum_tail h)
      · rw [if_pos rfl]
        exact ih _ _ (hasHashNum_tail h)

theorem mentionScan_none (fuel : Nat) : ∀ (s : Str),
    hasHashNum s = false → FEA.mentionScan fuel s = [] := by
  induction fuel with
  | zero => intro s h; rfl
  | succ k ih =>
    intro s h
    cases s with
    | nil => rfl
    | cons c rest =>
      unfold FEA.mentionScan
      by_cases hc : c = '#'
      · subst hc
        rw [if_pos rfl, head_not_digit_of_hash h]
        simp [ih _ (hasHashNum_tail h)]
      · rw [if_neg hc]
        exact ih _ (hasHashNum_tail h)

theorem extractLinkedIssues_no_ref {b : Str} (h : hasHashNum b = false) :
    FEA.extractLinkedIssues (some b) = [] := by
  simp only [FEA.extractLinkedIssues]
  by_cases hb : b.isEmpty = true
  · rw [if_pos hb]
  · rw [if_neg hb]
    rw [closingScan_none _ _ _ h, mentionScan_none _ _ h]
    rfl

/-! ### Properties of the blocked-flag filter loop -/

/-- The four invariants of the blocked-flag filter loop: the kept tokens
are a subsequence of the input, none of them is blocked, every recorded
flag is a blocked token of the input, and an input holding a blocked token
always yields a non-empty record. -/
theorem filterBlocked_props : ∀ args : List Str,
    List.Sublist (Trigger.filterBlockedLoop args).1 args ∧
    (∀ t ∈ (Trigger.filterBlockedLoop args).1,
        t ∉ Trigger.BLOCKED_FLAGS) ∧
    (∀ t ∈ (Trigger.filterBlockedLoop args).2,
        t ∈ Trigger.BLOCKED_FLAGS ∧ t ∈ args) ∧
    ((∃ t, t ∈ args ∧ t ∈ Trigger.BLOCKED_FLAGS) →
        (Trigger.filterBlockedLoop args).2 ≠ []) := by
  intro args
  induction args using Trigger.filterBlockedLoop.induct with
  | case1 =>
    refine ⟨List.Sublist.refl [], ?_, ?_, ?_⟩
    · intro t ht; cases ht
    · intro t ht; cases ht
    · rintro ⟨t, ht, _⟩; cases ht
  | case2 a rest h ih =>
    rw [Trigger.filterBlockedLoop.eq_def]
    simp only [if_pos h]
    obtain ⟨s, nk, bk, fd⟩ := ih
    refine ⟨s.cons a, nk, ?_, ?_⟩
    · intro t ht
      exact ⟨(bk t ht).1, List.mem_cons_of_mem a (bk t ht).2⟩
    · rintro ⟨t, ht, hb⟩
      rcases List.mem_cons.mp ht with rfl | ht
      · rw [List.isEmpty_iff.mp h] at hb
        exact absurd hb (by decide)
      · exact fd ⟨t, ht, hb⟩
  | case3 a h1 h2 h3 ih =>
    rw [Trigger.filterBlockedLoop.eq_def]
    simp only [if_neg h1, if_pos h2, if_pos h3]
    refine ⟨List.nil_sublist [a], ?_, ?_, ?_⟩
    · intro t ht; cases ht
    · intro t ht
      rcases List.mem_cons.mp ht with rfl | ht
      · exact ⟨h2, List.mem_singleton.mpr rfl⟩
      · cases ht
    · intro _; simp
  | case4 a h1 h2 h3 v rest2 ih =>
    rw [Trigger.filterBlockedLoop.eq_def]
    simp only [if_neg h1, if_pos h2, if_pos h3]
    obtain ⟨s, nk, bk, fd⟩ := ih
    refine ⟨(s.cons v).cons a, nk, ?_, ?_⟩
    · intro t ht
      rcases List.mem_cons.mp ht with rfl | ht
      · exact ⟨h2, List.mem_cons_self t _⟩
      · exact ⟨(bk t ht).1,
          List.mem_cons_of_mem a (List.mem_cons_of_mem v (bk t ht).2)⟩
    · intro _; simp
  | case5 a rest h1 h2 h3 ih =>
    rw [Trigger.filterBlockedLoop.eq_def]
    simp only [if_neg h1, if_pos h2, if_neg h3]
    obtain ⟨s, nk, bk, fd⟩ := ih
    refine ⟨s.cons a, nk, ?_, ?_⟩
    · intro t ht
      rcases List.mem_cons.mp ht with rfl | ht
      · exact ⟨h2, List.mem_cons_self t _⟩
      · exact ⟨(bk t ht).1, List.mem_cons_of_mem a (bk t ht).2⟩
    · intro _; simp
  | case6 a rest h1 h2 ih =>
    rw [Trigger.filterBlockedLoop.eq_def]
    simp only [if_neg h1, if_neg h2]
    obtain ⟨s, nk, bk, fd⟩ := ih
    refine ⟨s.cons₂ a, ?_, ?_, ?_⟩
    · intro t ht
      rcases List.mem_cons.mp ht with rfl | ht
      · exact h2
      · exact nk t ht
    · intro t ht
      exact ⟨(bk t ht).1, List.mem_cons_of_mem a (bk t ht).2⟩
    · rintro ⟨t, ht, hb⟩
      rcases List.mem_cons.mp ht with rfl | ht
      · exact absurd hb h2
      · exact fd ⟨t, ht, hb⟩

/-- The quote-aware tokenizer never emits an empty token: a token is
flushed only when the accumulator is non-empty. -/
theorem parseArgsGo_ne_nil : ∀ (q : Option Char) (cur s : Str),
    ∀ t ∈ Trigger.parseArgsGo q cur s, t ≠ [] := by
  intro q cur s
  induction q, cur, s using Trigger.parseArgsGo.induct with
  | case1 x current h =>
    cases x with
    | none => simp [Trigger.parseArgsGo, h]
    | some a => simp [Trigger.parseArgsGo, h]
  | case2 x current h =>
    have hcur : current ≠ [] := fun hnil => h (by rw [hnil]; rfl)
    cases x with
    | none =>
      simp only [Trigger.parseArgsGo, if_neg h, List.mem_singleton]
      rintro t rfl
      exact hcur
    | some a =>
      simp only [Trigger.parseArgsGo, if_neg h, List.mem_singleton]
      rintro t rfl
      exact hcur
  | case3 current c rest ih =>
    simp only [Trigger.parseArgsGo, if_pos rfl]
    exact ih
  | case4 q current c rest hne ih =>
    simp only [Trigger.parseArgsGo, if_neg hne]
    exact ih
  | case5 current c rest hq ih =>
    simp only [Trigger.parseArgsGo, if_pos hq]
    exact ih
  | case6 current c rest hq hsp ih =>
    simp only [Trigger.parseArgsGo, if_neg hq, if_pos hsp]
    intro t ht
    rcases List.mem_append.mp ht with h1 | h1
    · by_cases hcur : current.isEmpty = true
      · rw [if_pos hcur] at h1; cases h1
      · rw [if_neg hcur] at h1
        rw [List.mem_singleton] at h1
        subst h1
        exact fun hnil => hcur (by rw [hnil]; rfl)
    · exact ih t h1
  | case7 current c rest hq hsp ih =>
    simp only [Trigger.parseArgsGo, if_neg hq, if_neg hsp]
    exact ih

/-- On token lists free of empty tokens — which is all the tokenizer ever
produces — the source's filter loop computes exactly the claim's
description `filterSpec`: blocked flags removed with their value tokens
and recorded, everything else kept in place. -/
theorem filterBlockedLoop_eq_spec : ∀ args : List Str,
    (∀ t ∈ args, t ≠ []) →
    Trigger.filterBlockedLoop args = filterSpec args := by
  intro args
  induction args using Trigger.filterBlockedLoop.induct with
  | case1 => intro _; rfl
  | case2 a rest h ih =>
    intro hne
    exact absurd (List.isEmpty_iff.mp h) (hne a (List.mem_cons_self a rest))
  | case3 a h1 h2 h3 ih0 =>
    intro hne
    rw [Trigger.filterBlockedLoop.eq_def]
    simp only [if_neg h1, if_pos h2, if_pos h3]
    rw [filterSpec.eq_def]
    simp only [if_pos h2, if_pos h3]
    rfl
  | case4 a h1 h2 h3 v rest2 ih =>
    intro hne
    rw [Trigger.filterBlockedLoop.eq_def]
    simp only [if_neg h1, if_pos h2, if_pos h3]
    rw [filterSpec.eq_def]
    simp only [if_pos h2, if_pos h3]
    rw [ih (fun t ht =>
      hne t (List.mem_cons_of_mem a (List.mem_cons_of_mem v ht)))]
  | case5 a rest h1 h2 h3 ih =>
    intro hne
    rw [Trigger.filterBlockedLoop.eq_def]
    simp only [if_neg h1, if_pos h2, if_neg h3]
    rw [filterSpec.eq_def]
    simp only [if_pos h2, if_neg h3]
    rw [ih (fun t ht => hne t (List.mem_cons_of_mem a ht))]
  | case6 a rest h1 h2 ih =>
    intro hne
    rw [Trigger.filterBlockedLoop.eq_def]
    simp only [if_neg h1, if_neg h2]
    rw [filterSpec.eq_def]
    simp only [if_neg h2]
    rw [ih (fun t ht => hne t (List.mem_cons_of_mem a ht))]

/-! ### Unclosed-bracket behaviour of the trigger parser -/

theorem takeWhile_all {p : Char → Bool} : ∀ {l : Str},
    (∀ c ∈ l, p c = true) → l.takeWhile p = l := by
  intro l
  induction l with
  | nil => intro _; rfl
  | cons c rest ih =>
    intro h
    rw [List.takeWhile_cons_of_pos (h c (List.mem_cons_self c rest))]
    rw [ih (fun d hd => h d (List.mem_cons_of_mem c hd))]

theorem dropWhile_all {p : Char → Bool} : ∀ {l : Str},
    (∀ c ∈ l, p c = true) → l.dropWhile p = [] := by
  intro l
  induction l with
  | nil => intro _; rfl
  | cons c rest ih =>
    intro h
    rw [List.dropWhile_cons_of_pos (h c (List.mem_cons_self c rest))]
    exact ih (fun d hd => h d (List.mem_cons_of_mem c hd))

/-- The bracket regex on a text whose bracket is never closed: the whole
tail after `[` becomes the captured content and nothing remains. -/
theorem bracketMatch_unclosed {A r : Str}
    (hbr : A.dropWhile wsChar = '[' :: r) (hnc : ']' ∉ A) :
    Trigger.bracketMatch A = some (r, []) := by
  have hsub : ∀ c ∈ r, c ∈ A := by
    intro c hc
    have h1 : c ∈ ('[' :: r) := List.mem_cons_of_mem _ hc
    rw [← hbr] at h1
    exact (List.dropWhile_sublist (p := wsChar) (l := A)).subset h1
  have hrne : ∀ c ∈ r, c ≠ ']' := by
    intro c hc he
    exact hnc (he ▸ hsub c hc)
  have hdw : r.dropWhile (fun c => !decide (c = ']')) = [] := by
    apply dropWhile_all
    intro c hc
    simpa using hrne c hc
  simp [Trigger.bracketMatch, hbr, hdw]
  exact hrne

/-! ### Decomposition of the prepared argument list -/

/-- The argument list built by `prepareRunConfig` always decomposes as the
identity/model/auto-approve span, then `-p`, then the user tokens, then
`BASE_ARGS`. -/
theorem prepare_decomp (iap : Option Str) (pp : Str)
    (o : Runner.LettaOptions) :
    (Runner.prepareRunConfig iap pp o).lettaArgs =
      preArgsOf o ++ str "-p" :: (userArgsOf o ++ Runner.BASE_ARGS) := by
  unfold Runner.prepareRunConfig preArgsOf userArgsOf
  dsimp only
  simp only [List.append_assoc, List.cons_append, List.nil_append,
    List.singleton_append]

/-- Everything in the pre-prompt span is an identity flag, a model flag,
the auto-approve flag, or one of the option values. -/
theorem mem_preArgsOf {t : Str} {o : Runner.LettaOptions}
    (ht : t ∈ preArgsOf o) :
    t = str "--conversation" ∨ t = o.conversationId ∨ t = str "--agent" ∨
    t = o.agentId ∨ t = str "--new" ∨ t = str "-m" ∨ t = o.model ∨
    t = str "--yolo" := by
  unfold preArgsOf at ht
  rcases List.mem_append.mp ht with h | h
  · rcases List.mem_append.mp h with h | h
    · split_ifs at h <;> simp at h <;> tauto
    · split_ifs at h <;> simp at h <;> tauto
  · simp at h; tauto

/-- When a conversation id is present, the pre-prompt span holds only the
conversation flag, its value, the model flag pair and the auto-approve
flag. -/
theorem mem_preArgsOf_conv {t : Str} {o : Runner.LettaOptions}
    (hc : ¬ o.conversationId.isEmpty = true) (ht : t ∈ preArgsOf o) :
    t = str "--conversation" ∨ t = o.conversationId ∨ t = str "-m" ∨
    t = o.model ∨ t = str "--yolo" := by
  unfold preArgsOf at ht
  rw [if_pos hc] at ht
  rcases List.mem_append.mp ht with h | h
  · rcases List.mem_append.mp h with h | h
    · simp at h; tauto
    · split_ifs at h <;> simp at h <;> tauto
  · simp at h; tauto

/-! ### The claims -/

/-- C1: for every valid resumption record, parsing the formatted marker
returns the same record, with a present conversation id preserved.  As
amended: this holds for records whose fields are well formed (non-empty,
trimmed, single-line, free of the end token) and whose `created` field is
present — a record with `created` absent does not round-trip, because the
formatter writes the current time into the marker (see
`c1_counterexample`). -/
theorem c1_metadata_roundtrip (m : Meta.LettaMetadata) (now : Str)
    (hA : WFfield m.agentId) (hC : WFopt m.conversationId)
    (hM : WFopt m.model) (hT : WFopt m.created) (hTne : m.created ≠ none) :
    Meta.parseMetadata (Meta.formatMetadata m now) = some m :=
  meta_roundtrip m now hA hC hM hT hTne

/-- Witness for C1: a concrete record with a conversation id round-trips. -/
theorem c1_roundtrip_witness :
    Meta.parseMetadata (Meta.formatMetadata
      { agentId := str "ag-1", conversationId := some (str "c9"),
        created := some (str "2024-01-01T00:00:00Z") }
      (str "2025-01-01T00:00:00Z")) =
    some { agentId := str "ag-1", conversationId := some (str "c9"),
           created := some (str "2024-01-01T00:00:00Z") } :=
  c1_metadata_roundtrip _ _ (by decide) (by decide) (by decide) (by decide)
    (by decide)

/-- Counterexample for C1 as stated: a well-formed record with `created`
omitted does not round-trip — the parse result carries the formatter's
timestamp. -/
theorem c1_counterexample :
    WFfield (str "ag-1") ∧ WFopt (some (str "c9")) ∧
    Meta.parseMetadata (Meta.formatMetadata
      { agentId := str "ag-1", conversationId := some (str "c9") }
      (str "2024-01-01T00:00:00Z")) ≠
    some { agentId := str "ag-1", conversationId := some (str "c9") } := by
  decide

/-- C2: on a PR thread (number 10) with no parseable resumption record,
PR body `Fixes #42`, and a recognized bot comment on issue 42 whose marker
records conversation `c9`, the resolver returns conversation id `c9`
tagged `linkedFromIssue = 42`. -/
theorem c2_resolver_linked_issue :
    FEA.searchCommentsForAgent (c2Lister 10) = none ∧
    (FEA.findExistingAgent c2Lister 10 true (some (str "Fixes #42"))).map
        (fun r => (r.conversationId, r.linkedFromIssue)) =
      some (some (str "c9"), some 42) := by
  decide

/-- C3: the run configuration built for a resolved conversation
`conv-123` with user argument string `--agent agent-456`.  The builder
keeps `--conversation conv-123`, emits no `--new`, and merely passes
`--agent agent-456` through after the prompt flag — it does not let the
user's agent selection override the resolved identity, contradicting the
spec and the builder's own tests. -/
theorem c3_agent_override_ignored :
    (Runner.prepareRunConfig none (str "/tmp/prompt.txt")
        { agentId := str "agent-123", conversationId := str "conv-123",
          lettaArgs := str "--agent agent-456" }).lettaArgs =
      [str "--conversation", str "conv-123", str "--yolo", str "-p",
       str "--agent", str "agent-456", str "--output-format",
       str "stream-json"] ∧
    str "--new" ∉ (Runner.prepareRunConfig none (str "/tmp/prompt.txt")
        { agentId := str "agent-123", conversationId := str "conv-123",
          lettaArgs := str "--agent agent-456" }).lettaArgs := by
  decide

/-- C4: marker upsert into a marker-free body is idempotent and leaves
exactly one marker (a unique start token, with an end token after it).
As amended: this holds when the record's field values and the timestamp
are free of the marker delimiter tokens — a field containing `-->`
breaks idempotence (see `c4_counterexample`). -/
theorem c4_upsert_idempotent (body : Str) (m : CI.LettaMetadata) (now : Str)
    (hb : CI.hasMetadata body = false) (hm : CleanRec m) (hnow : CleanS now) :
    CI.updateMetadataInBody (CI.updateMetadataInBody body m now) m now =
        CI.updateMetadataInBody body m now ∧
      countSub Meta.START (CI.updateMetadataInBody body m now) = 1 ∧
      findSub Meta.START (CI.updateMetadataInBody body m now) =
        some (body.length + 2) ∧
      containsSub Meta.ENDT
        ((CI.updateMetadataInBody body m now).drop (body.length + 2)) =
        true :=
  ci_upsert_props body m now hb hm hnow

/-- Witness for C4 at a concrete body and record. -/
theorem c4_witness :
    CI.updateMetadataInBody
        (CI.updateMetadataInBody (str "hello")
          { agentId := str "ag-1", model := some (str "opus") }
          (str "2024-01-01T00:00:00Z"))
        { agentId := str "ag-1", model := some (str "opus") }
        (str "2024-01-01T00:00:00Z") =
      CI.updateMetadataInBody (str "hello")
        { agentId := str "ag-1", model := some (str "opus") }
        (str "2024-01-01T00:00:00Z") ∧
    countSub Meta.START (CI.updateMetadataInBody (str "hello")
        { agentId := str "ag-1", model := some (str "opus") }
        (str "2024-01-01T00:00:00Z")) = 1 ∧
    findSub Meta.START (CI.updateMetadataInBody (str "hello")
        { agentId := str "ag-1", model := some (str "opus") }
        (str "2024-01-01T00:00:00Z")) = some ((str "hello").length + 2) ∧
    containsSub Meta.ENDT ((CI.updateMetadataInBody (str "hello")
        { agentId := str "ag-1", model := some (str "opus") }
        (str "2024-01-01T00:00:00Z")).drop ((str "hello").length + 2)) =
      true :=
  c4_upsert_idempotent (str "hello")
    { agentId := str "ag-1", model := some (str "opus") }
    (str "2024-01-01T00:00:00Z") (by decide) (by decide) (by decide)

/-- Counterexample for C4 as stated: an agent id containing the end token
`-->` breaks idempotence of the upsert. -/
theorem c4_counterexample :
    CI.hasMetadata (str "hello") = false ∧
    CI.updateMetadataInBody
        (CI.updateMetadataInBody (str "hello") { agentId := str "a-->b" }
          (str "2024-01-01T00:00:00Z"))
        { agentId := str "a-->b" } (str "2024-01-01T00:00:00Z") ≠
      CI.updateMetadataInBody (str "hello") { agentId := str "a-->b" }
        (str "2024-01-01T00:00:00Z") := by
  decide

/-- C5: `extractLinkedIssues` maps `Fixes #42` to `[42]`, orders
closing-keyword hits before plain mentions, deduplicates repeated
references, and maps any text with no `#N` reference (no `#` immediately
followed by a digit), as well as an absent body, to the empty list. -/
theorem c5_extract_linked_issues :
    (FEA.extractLinkedIssues (some (str "Fixes #42")) = [42] ∧
     FEA.extractLinkedIssues
        (some (str "Fixes #100. See also #200 for context.")) =
       [100, 200] ∧
     FEA.extractLinkedIssues
        (some (str "Fixes #123, also fixes #123 again")) = [123]) ∧
    (∀ b : Str, hasHashNum b = false →
        FEA.extractLinkedIssues (some b) = []) ∧
    FEA.extractLinkedIssues none = [] := by
  exact ⟨by decide, fun b hb => extractLinkedIssues_no_ref hb, rfl⟩

set_option maxRecDepth 16384 in
/-- C6: terminal rendering.  A failed run whose agent wrote nothing gets
the fixed failure-default sentence and the error headline; a successful
run whose agent wrote `Done.` keeps `Done.` exactly once, has exactly one
finish headline, and — the agent id being known — exactly one metadata
marker, sitting at the very end of the body. -/
theorem c6_terminal_rendering (encodeUrl : Str → Option Str) :
    (containsSub
        (str "The agent encountered an issue before updating the comment.")
        (CL.updateCommentBody encodeUrl (str "2024-01-15T10:30:00Z")
          c6FailedInput) = true ∧
     containsSub (str "**Letta Code encountered an error**")
        (CL.updateCommentBody encodeUrl (str "2024-01-15T10:30:00Z")
          c6FailedInput) = true) ∧
    (countSub (str "Done.")
        (CL.updateCommentBody encodeUrl (str "2024-01-15T10:30:00Z")
          c6SuccessInput) = 1 ∧
     countSub (str "**Letta Code finished")
        (CL.updateCommentBody encodeUrl (str "2024-01-15T10:30:00Z")
          c6SuccessInput) = 1 ∧
     countSub Meta.START
        (CL.updateCommentBody encodeUrl (str "2024-01-15T10:30:00Z")
          c6SuccessInput) = 1 ∧
     List.isSuffixOf Meta.ENDT
        (CL.updateCommentBody encodeUrl (str "2024-01-15T10:30:00Z")
          c6SuccessInput) = true) := by
  have hF : CL.updateCommentBody encodeUrl (str "2024-01-15T10:30:00Z")
      c6FailedInput =
      CL.updateCommentBody (fun _ => none) (str "2024-01-15T10:30:00Z")
        c6FailedInput := rfl
  have hS : CL.updateCommentBody encodeUrl (str "2024-01-15T10:30:00Z")
      c6SuccessInput =
      CL.updateCommentBody (fun _ => none) (str "2024-01-15T10:30:00Z")
        c6SuccessInput := rfl
  rw [hF, hS]
  decide

/-- C7: on every token list the bracketed segment can produce (the
tokenizer never emits an empty token), the source's filter loop computes
exactly the claim's description `filterSpec`: each blocked token is
removed together with the immediately following value token when the flag
is value-consuming and its name is recorded, and every remaining token is
kept in its original position.  Concretely, `@bot [-p oops] fix this`
yields no arguments, the warning `Ignored flags: -p`, and prompt
`fix this`; non-blocked tokens are retained (`[--model haiku]` passes
through unchanged, also when mixed with a blocked pair). -/
theorem c7_blocked_flag_filtering :
    (∀ args : List Str, (∀ t ∈ args, t ≠ []) →
        Trigger.filterBlockedLoop args = filterSpec args) ∧
    (∀ input : Str, ∀ t ∈ Trigger.parseArgs input, t ≠ []) ∧
    Trigger.parseTrigger (str "@bot") (str "@bot [-p oops] fix this") =
      { lettaArgs := [], prompt := str "fix this",
        warnings := [str "Ignored flags: -p"], parseError := none } ∧
    Trigger.parseTrigger (str "@bot") (str "@bot [--model haiku] fix this") =
      { lettaArgs := [str "--model", str "haiku"], prompt := str "fix this",
        warnings := [], parseError := none } ∧
    Trigger.parseTrigger (str "@bot")
        (str "@bot [-p oops --model haiku] fix this") =
      { lettaArgs := [str "--model", str "haiku"], prompt := str "fix this",
        warnings := [str "Ignored flags: -p"], parseError := none } := by
  refine ⟨filterBlockedLoop_eq_spec, ?_, by decide, by decide, by decide⟩
  intro input t ht
  exact parseArgsGo_ne_nil none [] input t ht

/-- C8: when a `[` opens right after the trigger phrase and no `]` occurs
anywhere after it, the parser reports an unclosed-bracket error, returns
no arguments, and uses the whole trimmed post-trigger text as the prompt.
As amended: at least one character must follow the `[` — on a bare
trailing `[` the captured content is empty and no error is raised (see
`c8_counterexample`). -/
theorem c8_unclosed_bracket (tp body : Str) (i : Nat) (r : Str)
    (hfind : findSub (lowerL tp) (lowerL body) = some i)
    (hbr : (body.drop (i + tp.length)).dropWhile wsChar = '[' :: r)
    (hnc : ']' ∉ body.drop (i + tp.length))
    (hne : r ≠ []) :
    (Trigger.parseTrigger tp body).parseError ≠ none ∧
    (Trigger.parseTrigger tp body).lettaArgs = [] ∧
    (Trigger.parseTrigger tp body).prompt =
      trimL (body.drop (i + tp.length)) := by
  have hbm := bracketMatch_unclosed hbr hnc
  unfold Trigger.parseTrigger
  rw [hfind]
  dsimp only
  rw [hbm]
  dsimp only
  rw [if_pos ⟨hnc, fun hEmp => hne (List.isEmpty_iff.mp hEmp)⟩]
  refine ⟨by simp, rfl, rfl⟩

/-- Witness for C8: `@bot [x` has an unclosed bracket with content. -/
theorem c8_witness :
    (Trigger.parseTrigger (str "@bot") (str "@bot [x")).parseError ≠ none ∧
    (Trigger.parseTrigger (str "@bot") (str "@bot [x")).lettaArgs = [] ∧
    (Trigger.parseTrigger (str "@bot") (str "@bot [x")).prompt =
      trimL ((str "@bot [x").drop (0 + (str "@bot").length)) :=
  c8_unclosed_bracket (str "@bot") (str "@bot [x") 0 (str "x")
    (by decide) (by decide) (by decide) (by decide)

/-- Counterexample for C8 as stated: on `@bot [` the bracket opens right
after the trigger and is never closed, yet no parse error is raised. -/
theorem c8_counterexample :
    ((str "@bot [").drop (0 + (str "@bot").length)).dropWhile wsChar =
      '[' :: ([] : Str) ∧
    ']' ∉ (str "@bot [").drop (0 + (str "@bot").length) ∧
    findSub (lowerL (str "@bot")) (lowerL (str "@bot [")) = some 0 ∧
    (Trigger.parseTrigger (str "@bot") (str "@bot [")).parseError = none := by
  decide

/-- C9: the built argument list always carries `-p` before the user
tokens and ends with the `--output-format stream-json` pair after them.
As amended: `-p` occurs exactly once only when neither the user tokens
nor the option values themselves contain `-p` — the builder does not
deduplicate a user-supplied `-p` (see `c9_counterexample`). -/
theorem c9_prompt_flag_position (iap : Option Str) (pp : Str)
    (o : Runner.LettaOptions)
    (hu : str "-p" ∉ userArgsOf o)
    (hc : o.conversationId ≠ str "-p")
    (ha : o.agentId ≠ str "-p")
    (hm : o.model ≠ str "-p") :
    ∃ pre : List Str,
      (Runner.prepareRunConfig iap pp o).lettaArgs =
        pre ++ str "-p" :: (userArgsOf o ++
          [str "--output-format", str "stream-json"]) ∧
      str "-p" ∉ pre ∧ str "-p" ∉ userArgsOf o ∧
      str "-p" ∉ [str "--output-format", str "stream-json"] := by
  refine ⟨preArgsOf o, ?_, ?_, hu, by decide⟩
  · rw [prepare_decomp iap pp o]
    simp only [Runner.BASE_ARGS]
  · intro hmem
    rcases mem_preArgsOf hmem with h | h | h | h | h | h | h | h
    all_goals first
      | exact absurd h (by decide)
      | exact hc h.symm
      | exact ha h.symm
      | exact hm h.symm

/-- Witness for C9 at a concrete option value. -/
theorem c9_witness :
    ∃ pre : List Str,
      (Runner.prepareRunConfig none (str "/tmp/prompt.txt")
          { lettaArgs := str "--verbose" }).lettaArgs =
        pre ++ str "-p" ::
          (userArgsOf { lettaArgs := str "--verbose" } ++
            [str "--output-format", str "stream-json"]) ∧
      str "-p" ∉ pre ∧
      str "-p" ∉ userArgsOf
        ({ lettaArgs := str "--verbose" } : Runner.LettaOptions) ∧
      str "-p" ∉ [str "--output-format", str "stream-json"] :=
  c9_prompt_flag_position none (str "/tmp/prompt.txt")
    { lettaArgs := str "--verbose" }
    (by decide) (by decide) (by decide) (by decide)

/-- Counterexample for C9 as stated: a user-supplied `-p` makes the flag
appear twice in the built list. -/
theorem c9_counterexample :
    ((Runner.prepareRunConfig none (str "/tmp/prompt.txt")
        { lettaArgs := str "-p" }).lettaArgs.count (str "-p")) = 2 := by
  decide

/-- C10: with both a conversation id and an agent id present, the built
list starts with `--conversation <conversationId>`, and neither the
`--agent` flag nor the agent id itself appears anywhere in it.  As
amended: the absence claims hold only when the user tokens and the other
option values do not themselves contain those strings — user arguments
are passed through verbatim and can reintroduce both (see
`c10_counterexample`). -/
theorem c10_conversation_precedence (iap : Option Str) (pp : Str)
    (o : Runner.LettaOptions)
    (hcne : o.conversationId ≠ []) (hane : o.agentId ≠ []) :
    ((Runner.prepareRunConfig iap pp o).lettaArgs.take 2 =
      [str "--conversation", o.conversationId]) ∧
    (str "--agent" ∉ userArgsOf o → o.conversationId ≠ str "--agent" →
      o.model ≠ str "--agent" →
      str "--agent" ∉ (Runner.prepareRunConfig iap pp o).lettaArgs) ∧
    (o.agentId ∉ userArgsOf o → o.agentId ≠ o.conversationId →
      o.agentId ≠ o.model →
      o.agentId ∉ [str "--conversation", str "-m", str "--yolo", str "-p",
        str "--output-format", str "stream-json"] →
      o.agentId ∉ (Runner.prepareRunConfig iap pp o).lettaArgs) := by
  have hcond : ¬ o.conversationId.isEmpty = true :=
    fun hEmp => hcne (List.isEmpty_iff.mp hEmp)
  refine ⟨?_, ?_, ?_⟩
  · rw [prepare_decomp iap pp o]
    unfold preArgsOf
    rw [if_pos hcond]
    simp [List.take]
  · intro hu hcv hmv hmem
    rw [prepare_decomp iap pp o] at hmem
    rcases List.mem_append.mp hmem with h | h
    · rcases mem_preArgsOf_conv hcond h with h | h | h | h | h
      · exact absurd h (by decide)
      · exact hcv h.symm
      · exact absurd h (by decide)
      · exact hmv h.symm
      · exact absurd h (by decide)
    · rcases List.mem_cons.mp h with h | h
      · exact absurd h (by decide)
      · rcases List.mem_append.mp h with h | h
        · exact hu h
        · revert h; decide
  · intro hu h2 h3 hlit hmem
    simp only [List.mem_cons, List.not_mem_nil, or_false, not_or] at hlit
    obtain ⟨l1, l2, l3, l4, l5, l6⟩ := hlit
    rw [prepare_decomp iap pp o] at hmem
    rcases List.mem_append.mp hmem with h | h
    · rcases mem_preArgsOf_conv hcond h with h | h | h | h | h
      · exact l1 h
      · exact h2 h
      · exact l2 h
      · exact h3 h
      · exact l3 h
    · rcases List.mem_cons.mp h with h | h
      · exact l4 h
      · rcases List.mem_append.mp h with h | h
        · exact hu h
        · simp only [Runner.BASE_ARGS, List.mem_cons, List.not_mem_nil,
            or_false] at h
          rcases h with h | h
          · exact l5 h
          · exact l6 h

/-- Witness for C10 at a concrete option value with both ids set. -/
theorem c10_witness :
    ((Runner.prepareRunConfig none (str "/tmp/prompt.txt")
        { conversationId := str "c1",
          agentId := str "a1" }).lettaArgs.take 2 =
      [str "--conversation", str "c1"]) ∧
    str "--agent" ∉ (Runner.prepareRunConfig none (str "/tmp/prompt.txt")
        { conversationId := str "c1", agentId := str "a1" }).lettaArgs ∧
    str "a1" ∉ (Runner.prepareRunConfig none (str "/tmp/prompt.txt")
        { conversationId := str "c1", agentId := str "a1" }).lettaArgs := by
  have h := c10_conversation_precedence none (str "/tmp/prompt.txt")
    { conversationId := str "c1", agentId := str "a1" }
    (by decide) (by decide)
  exact ⟨h.1, h.2.1 (by decide) (by decide) (by decide),
    h.2.2 (by decide) (by decide) (by decide) (by decide)⟩

/-- Counterexample for C10 as stated: adversarial user arguments
reintroduce both the agent flag and the agent id even though a
conversation id is present. -/
theorem c10_counterexample :
    (str "c1" ≠ ([] : Str) ∧ str "a1" ≠ ([] : Str)) ∧
    str "--agent" ∈ (Runner.prepareRunConfig none (str "/tmp/prompt.txt")
        { conversationId := str "c1", agentId := str "a1",
          lettaArgs := str "--agent a1" }).lettaArgs ∧
    str "a1" ∈ (Runner.prepareRunConfig none (str "/tmp/prompt.txt")
        { conversationId := str "c1", agentId := str "a1",
          lettaArgs := str "--agent a1" }).lettaArgs := by
  decide

end Letta